import Mathlib

/-!
Verification of `scripts/cleanup_vercel_deployments.py`.

The script's core is `parse_deployments`, a layered best-effort parser that
extracts `(deployment_url, status)` pairs from the raw text output of an
external deployment lister, together with a retention policy in
`cleanup_project_deployments` that keeps the first extracted record and
deletes the rest.

Shallow embedding conventions:
- a Python string is a `List Char`; a line of output is `Line`;
- `output.split('\n')` is `splitLines`;
- Python's regular expressions are modelled by explicit scanning functions
  over `List Char`.  Each regex of the source is translated separately and
  the translation is documented at its definition.  `re.IGNORECASE` is
  modelled by comparing characters through `lowChar` (ASCII lowercasing,
  which is what the script's ASCII-only patterns exercise);
- the external lister is an `Option (List Line)` (its combined output, or
  `none` for timeout / exception / empty output), and the external deleter
  is a function `Deployment → Bool`;
- environment flags (`AUTO_CONFIRM_AGGRESSIVE_CLEANUP`) are `Bool`
  parameters.
-/

/-- A deployment record produced by the parser: `(deployment_url, status)`,
both kept exactly as captured from the text (source line 258). -/
abbrev Deployment : Type := List Char × List Char

/-- One line of raw lister output. -/
abbrev Line : Type := List Char

/-- Python `str` whitespace, as used by `str.strip()` and regex `\s` for the
ASCII inputs the script handles: space, tab, newline, carriage return,
vertical tab, form feed. -/
def isSpace (c : Char) : Bool :=
  c == ' ' || c == '\t' || c == '\n' || c == '\r' || c == '\x0b' || c == '\x0c'

/-- ASCII lowercasing of one character, modelling how `re.IGNORECASE`
compares the ASCII-only patterns of the script. -/
def lowChar : Char → Char
  | 'A' => 'a' | 'B' => 'b' | 'C' => 'c' | 'D' => 'd' | 'E' => 'e' | 'F' => 'f'
  | 'G' => 'g' | 'H' => 'h' | 'I' => 'i' | 'J' => 'j' | 'K' => 'k' | 'L' => 'l'
  | 'M' => 'm' | 'N' => 'n' | 'O' => 'o' | 'P' => 'p' | 'Q' => 'q' | 'R' => 'r'
  | 'S' => 's' | 'T' => 't' | 'U' => 'u' | 'V' => 'v' | 'W' => 'w' | 'X' => 'x'
  | 'Y' => 'y' | 'Z' => 'z'
  | c => c

/-- Lowercase a whole string. -/
def lowerStr (l : List Char) : List Char := l.map lowChar

/-- Case-sensitive "starts with", used for Python's `str.startswith` and
case-sensitive scans. -/
def startsCS : List Char → List Char → Bool
  | [], _ => true
  | _ :: _, [] => false
  | c :: cs, d :: ds => c == d && startsCS cs ds

/-- Case-insensitive "starts with", used for matching regex literals under
`re.IGNORECASE`. -/
def startsCI : List Char → List Char → Bool
  | [], _ => true
  | _ :: _, [] => false
  | c :: cs, d :: ds => lowChar c == lowChar d && startsCI cs ds

/-- Case-sensitive substring test, Python's `needle in hay`. -/
def containsSub (needle : List Char) : List Char → Bool
  | [] => startsCS needle []
  | l@(_ :: rest) => startsCS needle l || containsSub needle rest

/-- Case-insensitive substring test (an occurrence of a regex literal under
`re.IGNORECASE` anywhere in the string). -/
def containsCI (needle : List Char) : List Char → Bool
  | [] => startsCI needle []
  | l@(_ :: rest) => startsCI needle l || containsCI needle rest

/-- Longest non-whitespace run at the front: regex `[^\s]+` / `\S+` matched
greedily from the current position. -/
def takeToken (l : List Char) : List Char := l.takeWhile (fun c => !isSpace c)

/-- Remainder after `takeToken`. -/
def dropToken (l : List Char) : List Char := l.dropWhile (fun c => !isSpace c)

/-- Python `str.strip()`. -/
def strip (l : List Char) : List Char :=
  ((l.dropWhile isSpace).reverse.dropWhile isSpace).reverse

/-- Leftmost-match driver for an unanchored `re.search`: try the hit
function on every suffix, leftmost first.  This is how a Python regex engine
looks for the first position at which the whole pattern can match. -/
def scanFirst (g : List Char → Option α) : List Char → Option α
  | [] => none
  | c :: rest =>
    match g (c :: rest) with
    | some a => some a
    | none => scanFirst g rest

/-- Split a raw output blob into lines, Python `output.split('\n')`. -/
def splitLines : List Char → List Line
  | [] => [[]]
  | '\n' :: rest => [] :: splitLines rest
  | c :: rest =>
    match splitLines rest with
    | [] => [[c]]
    | cur :: ls => (c :: cur) :: ls

/-! Literal fragments of the source's regexes and string tests, written as
character lists. -/

/-- The literal `https://`. -/
def httpsL : List Char := ['h', 't', 't', 'p', 's', ':', '/', '/']

/-- The literal `Building`. -/
def buildingL : List Char := ['B', 'u', 'i', 'l', 'd', 'i', 'n', 'g']

/-- The literal `Queued`. -/
def queuedL : List Char := ['Q', 'u', 'e', 'u', 'e', 'd']

/-- The literal `building`. -/
def buildingLowL : List Char := ['b', 'u', 'i', 'l', 'd', 'i', 'n', 'g']

/-- The literal `queued`. -/
def queuedLowL : List Char := ['q', 'u', 'e', 'u', 'e', 'd']

/-- The status alternation `(Building|Queued|building|queued)` of the
source's patterns, in source order. -/
def kwWords : List (List Char) := [buildingL, queuedL, buildingLowL, queuedLowL]

/-- The truncated-status alternation `(Build|Queue|build|queue)` of primary
pattern 5 (source line 249). -/
def kwPrefixes : List (List Char) :=
  [['B', 'u', 'i', 'l', 'd'], ['Q', 'u', 'e', 'u', 'e'],
   ['b', 'u', 'i', 'l', 'd'], ['q', 'u', 'e', 'u', 'e']]

/-- Match one of the alternation's keywords at the current position,
first alternative first (regex alternation order), case-insensitively;
the capture keeps the source casing. -/
def matchKw : List (List Char) → List Char → Option (List Char)
  | [], _ => none
  | kw :: kws, l => if startsCI kw l then some (l.take kw.length) else matchKw kws l

/-- Header keyword `Age` (source line 221). -/
def ageL : List Char := ['A', 'g', 'e']

/-- Header keyword `Deployment`. -/
def deploymentL : List Char := ['D', 'e', 'p', 'l', 'o', 'y', 'm', 'e', 'n', 't']

/-- Header keyword `Status`. -/
def statusL : List Char := ['S', 't', 'a', 't', 'u', 's']

/-- Header keyword `Environment`. -/
def environmentL : List Char :=
  ['E', 'n', 'v', 'i', 'r', 'o', 'n', 'm', 'e', 'n', 't']

/-- Header keyword `Duration`. -/
def durationL : List Char := ['D', 'u', 'r', 'a', 't', 'i', 'o', 'n']

/-- The header keyword set of source line 221, in source order. -/
def headerKws : List (List Char) :=
  [ageL, deploymentL, statusL, environmentL, durationL]

/-- Header test of source line 221: the (stripped) line contains one of the
keywords, case-sensitively (`'Age' in line or ...`). -/
def isHeaderLine (l : List Char) : Bool :=
  headerKws.any (fun k => containsSub k l)

/-! Primary-parser extraction patterns (source lines 239-250).  All are
applied to the untrimmed original line with `re.search(..., re.IGNORECASE)`. -/

/-- Primary pattern 1,
`^\s*\S+\s+(https://[^\s]+)\s+●\s*(Building|Queued|building|queued)`.
The pattern is `^`-anchored; since every mandatory atom after a greedy run
(`\S+`, `[^\s]+`, `\s+`) can only match at that run's maximal end (a
whitespace atom after a non-whitespace run and vice versa), the regex's
backtracking never produces a different split and a single greedy scan is
an exact model. -/
def p1 (l : Line) : Option Deployment :=
  let l1 := l.dropWhile isSpace
  if takeToken l1 = [] then none
  else
    match dropToken l1 with
    | [] => none
    | c :: r2 =>
      if isSpace c then
        let l3 := (c :: r2).dropWhile isSpace
        if startsCI httpsL l3 = true ∧ 9 ≤ (takeToken l3).length then
          match dropToken l3 with
          | [] => none
          | d :: r4 =>
            if isSpace d then
              match (d :: r4).dropWhile isSpace with
              | '●' :: r5 =>
                match matchKw kwWords (r5.dropWhile isSpace) with
                | some s => some (takeToken l3, s)
                | none => none
              | _ => none
            else none
        else none
      else none

/-- Primary pattern 2,
`^\s*\S+\s+(https://[^\s]+)\s+(Building|Queued|building|queued)`; same
greedy-scan argument as pattern 1. -/
def p2 (l : Line) : Option Deployment :=
  let l1 := l.dropWhile isSpace
  if takeToken l1 = [] then none
  else
    match dropToken l1 with
    | [] => none
    | c :: r2 =>
      if isSpace c then
        let l3 := (c :: r2).dropWhile isSpace
        if startsCI httpsL l3 = true ∧ 9 ≤ (takeToken l3).length then
          match dropToken l3 with
          | [] => none
          | d :: r4 =>
            if isSpace d then
              match matchKw kwWords ((d :: r4).dropWhile isSpace) with
              | some s => some (takeToken l3, s)
              | none => none
            else none
        else none
      else none

/-- Hit for `\s+(keyword...)` somewhere to the right: a whitespace character
immediately followed by a keyword (a keyword begins with a letter, so under
backtracking the`\s+` run must end exactly where the keyword starts). -/
def spacedKwAt (kws : List (List Char)) : List Char → Option (List Char)
  | [] => none
  | c :: rest => if isSpace c then matchKw kws rest else none

/-- Hit, at a given position, for patterns of shape
`(https://[^\s]+).*?\s+(kw)` (primary patterns 3 and 5): a case-insensitive
`https://` starting here with at least one further non-space character, and
a whitespace-preceded keyword somewhere after the greedily captured URL
token.  A keyword cannot occur inside the token here because `\s+` demands
whitespace, so the greedy URL capture is exact. -/
def p3hit (kws : List (List Char)) (l : List Char) : Option Deployment :=
  if startsCI httpsL l = true ∧ 9 ≤ (takeToken l).length then
    match scanFirst (spacedKwAt kws) (dropToken l) with
    | some s => some (takeToken l, s)
    | none => none
  else none

/-- Primary pattern 3, `(https://[^\s]+).*?\s+(Building|Queued|building|queued)`
(unanchored `re.search`: leftmost viable URL start wins). -/
def p3 : Line → Option Deployment := scanFirst (p3hit kwWords)

/-- Primary pattern 5, `(https://[^\s]+).*?\s+(Build|Queue|build|queue)` -/
def p5 : Line → Option Deployment := scanFirst (p3hit kwPrefixes)

/-- Backtracking of the greedy URL capture `(https://[^\s]+)` when the rest
of the pattern finds nothing after the token: the capture shrinks, and the
first success is at the rightmost split position inside the token (at
offset at least 9, keeping `https://` plus one character in the capture)
where the rest of the pattern matches the remaining suffix of the line. -/
def lastSplit (hit : List Char → Option (List Char)) (l : List Char) : Option Deployment :=
  (List.range (takeToken l).length).reverse.findSome? (fun q =>
    if 9 ≤ q then (hit (l.drop q)).map (fun s => (l.take q, s))
    else none)

/-- Hit for pattern 4, `(https://[^\s]+).*?(Building|Queued|building|queued)`:
URL at this position; the keyword may follow the token anywhere (lazy `.*?`
takes the nearest occurrence), or, failing that, sit inside the token
(greedy URL backtracking, `lastSplit`). -/
def p4hit (l : List Char) : Option Deployment :=
  if startsCI httpsL l = true ∧ 9 ≤ (takeToken l).length then
    match scanFirst (matchKw kwWords) (dropToken l) with
    | some s => some (takeToken l, s)
    | none => lastSplit (matchKw kwWords) l
  else none

/-- Primary pattern 4 (also fallback pattern 2, source lines 247 and 287). -/
def p4fn : Line → Option Deployment := scanFirst p4hit

/-- Hit for `●\s*(keyword...)` at a position: the bullet, optional spaces,
then a keyword. -/
def bulletKwAt : List Char → Option (List Char)
  | '●' :: rest => matchKw kwWords (rest.dropWhile isSpace)
  | _ => none

/-- Hit for fallback pattern 1,
`(https://[^\s]+).*?●\s*(Building|Queued|building|queued)` (source 286). -/
def f1hit (l : List Char) : Option Deployment :=
  if startsCI httpsL l = true ∧ 9 ≤ (takeToken l).length then
    match scanFirst bulletKwAt (dropToken l) with
    | some s => some (takeToken l, s)
    | none => lastSplit bulletKwAt l
  else none

/-- Fallback pattern 1. -/
def f1 : Line → Option Deployment := scanFirst f1hit

/-- Fallback pattern 3, `^(https://[^\s]+)` (source line 289): anchored at
the start of the untrimmed original line, still under `re.IGNORECASE`. -/
def f3 (l : Line) : Option (List Char) :=
  if startsCI httpsL l = true ∧ 9 ≤ (takeToken l).length then some (takeToken l)
  else none

/-- The primary parser's pattern chain (source lines 239-261): first match
wins, in source order 1-5. -/
def matchPatterns (l : Line) : Option Deployment :=
  match p1 l with
  | some r => some r
  | none =>
    match p2 l with
    | some r => some r
    | none =>
      match p3 l with
      | some r => some r
      | none =>
        match p4fn l with
        | some r => some r
        | none => p5 l

/-- Data-row loop of the primary parser (source lines 214-264, after the
header was found): skip blank lines; count every non-blank line and stop
before pattern-matching once the count exceeds `MAX_PARSE_ROWS = 10`
(`parse_count += 1; if parse_count > MAX_PARSE_ROWS: break`). -/
def primaryRows : List Line → Nat → List Deployment
  | [], _ => []
  | l :: rest, cnt =>
    if strip l = [] then primaryRows rest cnt
    else if 10 < cnt + 1 then []
    else
      match matchPatterns l with
      | some r => r :: primaryRows rest (cnt + 1)
      | none => primaryRows rest (cnt + 1)

/-- Primary parser (source lines 209-264): scan for the first non-blank line
whose stripped text contains a header keyword; if one exists, parse the
following lines as data rows, otherwise report `none` (`header_found`
stays false). -/
def primaryParse : List Line → Option (List Deployment)
  | [] => none
  | l :: rest =>
    if strip l = [] then primaryParse rest
    else if isHeaderLine (strip l) then some (primaryRows rest 0)
    else primaryParse rest

/-- Python regex `\w` for the script's ASCII data: letters, digits,
underscore. -/
def wordChar (c : Char) : Bool := c.isAlphanum || c == '_'

/-- Word boundary before the keyword: start of string or a non-word
character. -/
def boundaryOkBefore : Option Char → Bool
  | none => true
  | some c => !wordChar c

/-- Word boundary after the keyword: end of string or a non-word character. -/
def boundaryOkAfter (l : List Char) (n : Nat) : Bool :=
  match l.drop n with
  | [] => true
  | d :: _ => !wordChar d

/-- Whole-word keyword match at the current position, for the neighborhood
regex `\b(Building|Queued|building|queued)\b` (source line 313): `prev` is
the character before the position, if any. -/
def matchWordKw (prev : Option Char) (l : List Char) : Option (List Char) :=
  kwWords.findSome? (fun kw =>
    if startsCI kw l && boundaryOkBefore prev && boundaryOkAfter l kw.length then
      some (l.take kw.length)
    else none)

/-- Leftmost whole-word keyword occurrence in a line. -/
def findWordKw : Option Char → List Char → Option (List Char)
  | _, [] => none
  | prev, c :: rest =>
    match matchWordKw prev (c :: rest) with
    | some s => some s
    | none => findWordKw (some c) rest

/-- Indices examined by the neighborhood search,
`range(max(0, i-2), min(len(lines), i+3))` skipping `i` itself (source
lines 308-311); natural-number subtraction supplies the `max(0, ·)`. -/
def neighborIdx (len i : Nat) : List Nat :=
  (List.range' (i - 2) (min len (i + 3) - (i - 2))).filter (fun j => j != i)

/-- Neighborhood status search for a bare URL at line `i` (source lines
307-320): first neighbor line (in index order) whose stripped text contains
a transient-status keyword as a whole word; its first such occurrence is the
status. -/
def neighborhood (lines : List Line) (i : Nat) : Option (List Char) :=
  (neighborIdx lines.length i).findSome? (fun j =>
    match lines.get? j with
    | some lj => findWordKw none (strip lj)
    | none => none)

/-- The `>` prefix skipped by the fallback parser (source line 277). -/
def gtL : List Char := ['>']

/-- The `You can learn more` prefix skipped by the fallback parser. -/
def learnL : List Char :=
  ['Y', 'o', 'u', ' ', 'c', 'a', 'n', ' ', 'l', 'e', 'a', 'r', 'n', ' ',
   'm', 'o', 'r', 'e']

/-- Records contributed by one line of the fallback parser (source lines
272-326): skip blank / pagination / help lines; on a line containing
`https://` (case-sensitive `in`), try fallback patterns 1, 2, then the bare
URL pattern 3 with the neighborhood search.  Note the source initialises
`parse_count = 0` and checks `if parse_count >= 10: break` but never
increments `parse_count`, so the loop in fact visits every line; the model
reproduces that by having no counter. -/
def fallbackStep (lines : List Line) (i : Nat) (l : Line) : List Deployment :=
  if strip l = [] ∨ startsCS gtL (strip l) = true ∨ startsCS learnL (strip l) = true then
    []
  else if containsSub httpsL l then
    match f1 l with
    | some r => [r]
    | none =>
      match p4fn l with
      | some r => [r]
      | none =>
        match f3 l with
        | some url =>
          match neighborhood lines i with
          | some st => [(url, st)]
          | none => []
        | none => []
  else []

/-- Fallback parser (source lines 266-326), active only when no header was
found: process every line in order. -/
def fallbackParse (lines : List Line) : List Deployment :=
  (lines.enum.map (fun p => fallbackStep lines p.1 p.2)).flatten

/-- Lines feeding the aggressive fallback (source line 329/333): original
lines containing `https://` whose stripped text is non-empty, stripped. -/
def urlLines (lines : List Line) : List Line :=
  (lines.filter (fun l => containsSub httpsL l && !(strip l).isEmpty)).map strip

/-- Hit for the aggressive fallback's URL regex `(https://[^\s]+)` (source
line 339), which is case-sensitive (no `re.IGNORECASE` there). -/
def urlSearchHit (l : List Char) : Option (List Char) :=
  if startsCS httpsL l = true ∧ 9 ≤ (takeToken l).length then some (takeToken l)
  else none

/-- Unanchored search for the aggressive fallback's URL regex. -/
def urlSearch : List Char → Option (List Char) := scanFirst urlSearchHit

/-- Aggressive fallback (source lines 328-357): take the first three URL
lines, extract a URL from each, guess `Building` for the first and `Queued`
for the rest, and append the record only when
`AUTO_CONFIRM_AGGRESSIVE_CLEANUP` is set. -/
def aggressive (autoConfirm : Bool) (uls : List Line) : List Deployment :=
  ((uls.take 3).enum).filterMap (fun p =>
    if containsSub httpsL p.2 then
      match urlSearch p.2 with
      | some url =>
        if autoConfirm then
          some (url, if p.1 = 0 then buildingL else queuedL)
        else none
      | none => none
    else none)

/-- The full parser `parse_deployments` (source lines 189-360) on an
already-split output: primary pass if a header is found, otherwise the
fallback pass; then the aggressive fallback when the result is still empty
and at least three URL lines exist. -/
def parse_deployments (autoConfirm : Bool) (lines : List Line) : List Deployment :=
  let base :=
    match primaryParse lines with
    | some ds => ds
    | none => fallbackParse lines
  if base = [] ∧ 3 ≤ (urlLines lines).length then
    base ++ aggressive autoConfirm (urlLines lines)
  else base

/-- The full parser on a raw output blob. -/
def parse_deployments_raw (autoConfirm : Bool) (output : List Char) : List Deployment :=
  parse_deployments autoConfirm (splitLines output)

/-- The records the caller keeps (source lines 430-433: `enumerate(..., 1)`,
`if i == 1: continue`): the records whose 1-based position is 1. -/
def retainedList (ds : List Deployment) : List Deployment :=
  ((List.enumFrom 1 ds).filter (fun p => p.1 == 1)).map Prod.snd

/-- The records the caller attempts to delete, in order: the records whose
1-based position is not 1. -/
def toDeleteList (ds : List Deployment) : List Deployment :=
  ((List.enumFrom 1 ds).filter (fun p => p.1 != 1)).map Prod.snd

/-- Per-project cleanup `cleanup_project_deployments` (source lines
396-448), with the lister collaborator's combined output as an `Option`
(`none` for timeout / exception / empty output, making the function return
`(0, 0)` at line 410-411) and the deleter collaborator as a predicate.
Returns `(success_count, attempted)`. -/
def cleanup_project (autoConfirm : Bool) (listerOut : Option (List Line))
    (del : Deployment → Bool) : Nat × Nat :=
  match listerOut with
  | none => (0, 0)
  | some lines =>
    let ds := parse_deployments autoConfirm lines
    if ds = [] then (0, 0)
    else ((toDeleteList ds).countP del, (toDeleteList ds).length)

/-- The orchestrator's per-project loop and totals (source lines 493-501):
sequentially accumulate `(total_success, total_attempted)`. -/
def runAll (autoConfirm : Bool) (outs : List (Option (List Line)))
    (del : Deployment → Bool) : Nat × Nat :=
  outs.foldl (fun acc o =>
    let r := cleanup_project autoConfirm o del
    (acc.1 + r.1, acc.2 + r.2)) (0, 0)

example :
    p1 ['3', 'd', ' ', 'h', 't', 't', 'p', 's', ':', '/', '/', 'a', '.', 'x',
        ' ', '●', ' ', 'B', 'u', 'i', 'l', 'd', 'i', 'n', 'g'] =
      some (['h', 't', 't', 'p', 's', ':', '/', '/', 'a', '.', 'x'], buildingL) := by
  decide

example :
    p2 ['3', 'd', ' ', 'h', 't', 't', 'p', 's', ':', '/', '/', 'a', '.', 'x',
        ' ', 'q', 'u', 'e', 'u', 'e', 'd'] =
      some (['h', 't', 't', 'p', 's', ':', '/', '/', 'a', '.', 'x'], queuedLowL) := by
  decide

example :
    parse_deployments false
      [['A', 'g', 'e', ' ', 'S', 't', 'a', 't', 'u', 's'],
       ['3', 'd', ' ', 'h', 't', 't', 'p', 's', ':', '/', '/', 'a', '.', 'x',
        ' ', '●', ' ', 'B', 'u', 'i', 'l', 'd', 'i', 'n', 'g'],
       ['4', 'd', ' ', 'h', 't', 't', 'p', 's', ':', '/', '/', 'b', '.', 'x',
        ' ', '●', ' ', 'R', 'e', 'a', 'd', 'y']] =
      [(['h', 't', 't', 'p', 's', ':', '/', '/', 'a', '.', 'x'], buildingL)] := by
  decide

/-! General lemmas about the scanning primitives. -/

theorem startsCI_drop_of_containsCI {kw : List Char} :
    ∀ {l : List Char}, containsCI kw l = false → ∀ n, startsCI kw (l.drop n) = false := by
  intro l
  induction l with
  | nil => intro h n; simpa [containsCI] using h
  | cons c r ih =>
    intro h n
    rw [containsCI, Bool.or_eq_false_iff] at h
    cases n with
    | zero => exact h.1
    | succ m => exact ih h.2 m

theorem containsCI_of_suffix {kw x : List Char} :
    ∀ {l : List Char}, x <:+ l → startsCI kw x = true → containsCI kw l = true := by
  intro l hx hs
  obtain ⟨t, rfl⟩ := hx
  induction t with
  | nil =>
    cases x with
    | nil => simpa [containsCI] using hs
    | cons c r => simp [containsCI, hs]
  | cons c t ih => simp [containsCI, ih]

theorem containsCI_false_suffix {kw x l : List Char} (h : containsCI kw l = false)
    (hx : x <:+ l) : startsCI kw x = false := by
  obtain ⟨t, rfl⟩ := hx
  have := startsCI_drop_of_containsCI h t.length
  simpa [List.drop_left] using this

theorem startsCS_drop_of_containsSub {kw : List Char} :
    ∀ {l : List Char}, containsSub kw l = false → ∀ n, startsCS kw (l.drop n) = false := by
  intro l
  induction l with
  | nil => intro h n; simpa [containsSub] using h
  | cons c r ih =>
    intro h n
    rw [containsSub, Bool.or_eq_false_iff] at h
    cases n with
    | zero => exact h.1
    | succ m => exact ih h.2 m

theorem scanFirst_eq_none {g : List Char → Option α} :
    ∀ {l : List Char}, (∀ x, x <:+ l → g x = none) → scanFirst g l = none := by
  intro l
  induction l with
  | nil => intro _; rfl
  | cons c r ih =>
    intro h
    rw [scanFirst, h (c :: r) List.suffix_rfl]
    exact ih fun x hx => h x (hx.trans (List.suffix_cons c r))

theorem scanFirst_eq_some {g : List Char → Option α} {a : α} :
    ∀ {l : List Char}, scanFirst g l = some a → ∃ x, x <:+ l ∧ g x = some a := by
  intro l
  induction l with
  | nil => intro h; simp [scanFirst] at h
  | cons c r ih =>
    intro h
    rw [scanFirst] at h
    cases hg : g (c :: r) with
    | some b =>
      rw [hg] at h
      exact ⟨c :: r, List.suffix_rfl, by simpa using hg.trans (congrArg some (Option.some.inj h).symm ▸ rfl)⟩
    | none =>
      rw [hg] at h
      obtain ⟨x, hx, hgx⟩ := ih h
      exact ⟨x, hx.trans (List.suffix_cons c r), hgx⟩

theorem startsCI_of_append_left {k1 k2 x : List Char}
    (h : startsCI (k1 ++ k2) x = true) : startsCI k1 x = true := by
  induction k1 generalizing x with
  | nil => rfl
  | cons c cs ih =>
    cases x with
    | nil => simp [startsCI] at h
    | cons d ds =>
      rw [List.cons_append, startsCI, Bool.and_eq_true] at h
      rw [startsCI, Bool.and_eq_true]
      exact ⟨h.1, ih h.2⟩

theorem startsCI_congr {k1 k2 : List Char} (hk : lowerStr k1 = lowerStr k2) :
    ∀ x, startsCI k1 x = startsCI k2 x := by
  induction k1 generalizing k2 with
  | nil =>
    cases k2 with
    | nil => intro x; rfl
    | cons d ds => simp [lowerStr] at hk
  | cons c cs ih =>
    cases k2 with
    | nil => simp [lowerStr] at hk
    | cons d ds =>
      simp only [lowerStr, List.map_cons, List.cons.injEq] at hk
      intro x
      cases x with
      | nil => rfl
      | cons e es => simp [startsCI, hk.1, ih (by simpa [lowerStr] using hk.2)]

/-! Retention policy lemmas. -/

theorem filter_enumFrom_ne_one {α : Type} :
    ∀ (ds : List α) (n : Nat), 2 ≤ n →
      ((List.enumFrom n ds).filter (fun p => p.1 != 1)).map Prod.snd = ds := by
  intro ds
  induction ds with
  | nil => intro n _; rfl
  | cons a l ih =>
    intro n hn
    have hne : (n != 1) = true := by
      simp only [bne_iff_ne, ne_eq]
      omega
    simp only [List.enumFrom, List.filter, hne, List.map_cons]
    exact congrArg (a :: ·) (ih (n + 1) (by omega))

theorem filter_enumFrom_eq_one {α : Type} :
    ∀ (ds : List α) (n : Nat), 2 ≤ n →
      ((List.enumFrom n ds).filter (fun p => p.1 == 1)).map Prod.snd = [] := by
  intro ds
  induction ds with
  | nil => intro n _; rfl
  | cons a l ih =>
    intro n hn
    have hne : (n == 1) = false := by
      simp only [beq_eq_false_iff_ne, ne_eq]
      omega
    simp only [List.enumFrom, List.filter, hne]
    exact ih (n + 1) (by omega)

theorem toDeleteList_eq_drop (ds : List Deployment) : toDeleteList ds = ds.drop 1 := by
  cases ds with
  | nil => rfl
  | cons a l =>
    show ((((1, a) : Nat × Deployment) :: List.enumFrom 2 l).filter
      (fun p => p.1 != 1)).map Prod.snd = l
    rw [List.filter_cons_of_neg (by simp)]
    exact filter_enumFrom_ne_one l 2 (by omega)

theorem retainedList_eq_take (ds : List Deployment) : retainedList ds = ds.take 1 := by
  cases ds with
  | nil => rfl
  | cons a l =>
    show ((((1, a) : Nat × Deployment) :: List.enumFrom 2 l).filter
      (fun p => p.1 == 1)).map Prod.snd = [a]
    rw [List.filter_cons_of_pos (by simp), List.map_cons]
    rw [filter_enumFrom_eq_one l 2 (by omega)]

/-- C3: the retention policy keeps exactly the first record of a non-empty
parse result and deletes the rest in order; retained and to-delete together
recover the original sequence, the to-delete part has length `N - 1`, and
both parts are empty for an empty parse result. -/
theorem c3_retention_policy (ds : List Deployment) :
    retainedList ds = ds.take 1 ∧
    toDeleteList ds = ds.drop 1 ∧
    retainedList ds ++ toDeleteList ds = ds ∧
    (toDeleteList ds).length = ds.length - 1 := by
  refine ⟨retainedList_eq_take ds, toDeleteList_eq_drop ds, ?_, ?_⟩
  · rw [retainedList_eq_take ds, toDeleteList_eq_drop ds, List.take_append_drop]
  · rw [toDeleteList_eq_drop ds, List.length_drop]

/-- C9: per-project outcome shape: attempted is always `N - 1` for a parse
of length `N` (also when `N = 0` or `N = 1`), succeeded never exceeds
attempted, and an empty parse yields `(0, 0)`. -/
theorem c9_outcome_invariant (ac : Bool) (lines : List Line) (del : Deployment → Bool) :
    (cleanup_project ac (some lines) del).2 = (parse_deployments ac lines).length - 1 ∧
    (cleanup_project ac (some lines) del).1 ≤ (cleanup_project ac (some lines) del).2 ∧
    (parse_deployments ac lines = [] → cleanup_project ac (some lines) del = (0, 0)) := by
  have hcp : cleanup_project ac (some lines) del =
      if parse_deployments ac lines = [] then (0, 0)
      else ((toDeleteList (parse_deployments ac lines)).countP del,
            (toDeleteList (parse_deployments ac lines)).length) := rfl
  by_cases h : parse_deployments ac lines = []
  · rw [hcp, if_pos h]
    exact ⟨by simp [h], Nat.le_refl 0, fun _ => rfl⟩
  · rw [hcp, if_neg h]
    refine ⟨?_, ?_, fun he => absurd he h⟩
    · show (toDeleteList (parse_deployments ac lines)).length = _
      rw [toDeleteList_eq_drop, List.length_drop]
    · exact List.countP_le_length del

/-- Closed instance of `c9_outcome_invariant` with satisfied hypotheses. -/
theorem c9_outcome_invariant_witness :
    (cleanup_project false (some ["Age".toList, "3d https://a.x Building".toList])
        (fun _ => false)).2 =
      (parse_deployments false ["Age".toList, "3d https://a.x Building".toList]).length - 1 ∧
    (cleanup_project false (some ["Age".toList, "3d https://a.x Building".toList])
        (fun _ => false)).1 ≤
      (cleanup_project false (some ["Age".toList, "3d https://a.x Building".toList])
        (fun _ => false)).2 ∧
    (parse_deployments false ["Age".toList, "3d https://a.x Building".toList] = [] →
      cleanup_project false (some ["Age".toList, "3d https://a.x Building".toList])
        (fun _ => false) = (0, 0)) :=
  c9_outcome_invariant false ["Age".toList, "3d https://a.x Building".toList] (fun _ => false)

theorem runAll_insert_none (ac : Bool) (del : Deployment → Bool)
    (post : List (Option (List Line))) :
    ∀ (pre : List (Option (List Line))) (acc : Nat × Nat),
      (pre ++ none :: post).foldl (fun acc o =>
        let r := cleanup_project ac o del
        (acc.1 + r.1, acc.2 + r.2)) acc =
      (pre ++ post).foldl (fun acc o =>
        let r := cleanup_project ac o del
        (acc.1 + r.1, acc.2 + r.2)) acc := by
  intro pre
  induction pre with
  | nil =>
    intro acc
    simp only [List.nil_append, List.foldl_cons]
    rfl
  | cons o pre ih =>
    intro acc
    simp only [List.cons_append, List.foldl_cons]
    exact ih _

/-- C8: a project whose lister yields no combined output (timeout,
exception, or empty text, modelled as `none`) contributes the outcome
`(0 succeeded, 0 attempted)` — hence zero deleter invocations — and the
orchestrator's totals are exactly those of the remaining projects. -/
theorem c8_lister_failure (ac : Bool) (del : Deployment → Bool)
    (pre post : List (Option (List Line))) :
    cleanup_project ac none del = (0, 0) ∧
    runAll ac (pre ++ none :: post) del = runAll ac (pre ++ post) del := by
  exact ⟨rfl, runAll_insert_none ac del post pre (0, 0)⟩

/-- Eleven headerless lines, each holding a URL and a transient status. -/
def c1Input : List Line :=
  ["https://d01.app Building".toList, "https://d02.app Building".toList,
   "https://d03.app Building".toList, "https://d04.app Building".toList,
   "https://d05.app Building".toList, "https://d06.app Building".toList,
   "https://d07.app Building".toList, "https://d08.app Building".toList,
   "https://d09.app Building".toList, "https://d10.app Building".toList,
   "https://d11.app Building".toList]

/-- C1: the primary parser's row cap of 10 is real, but the fallback
parser's cap is dead code: `parse_count` is initialised and tested
(`if parse_count >= 10: break`, source lines 271-274) yet never
incremented, so on a headerless output with eleven URL lines the fallback
parses all eleven — contradicting the source's own cap check and log
message ("最多前 10 行"). -/
theorem c1_row_caps :
    (∀ (lines : List Line) (ds : List Deployment),
        primaryParse lines = some ds → ds.length ≤ 10) ∧
    primaryParse c1Input = none ∧
    (parse_deployments false c1Input).length = 11 := by
  refine ⟨?_, by decide, by decide⟩
  have key : ∀ (ls : List Line) (cnt : Nat), (primaryRows ls cnt).length ≤ 10 - cnt := by
    intro ls
    induction ls with
    | nil => intro cnt; simp [primaryRows]
    | cons l rest ih =>
      intro cnt
      rw [primaryRows]
      by_cases hb : strip l = []
      · rw [if_pos hb]; exact ih cnt
      · rw [if_neg hb]
        by_cases hc : 10 < cnt + 1
        · rw [if_pos hc]; simp
        · rw [if_neg hc]
          cases hm : matchPatterns l with
          | some r =>
            have h1 := ih (cnt + 1)
            simp only [List.length_cons]
            omega
          | none => exact Nat.le_trans (ih (cnt + 1)) (by omega)
  intro lines ds h
  induction lines with
  | nil => simp [primaryParse] at h
  | cons l rest ih =>
    rw [primaryParse] at h
    by_cases hb : strip l = []
    · rw [if_pos hb] at h; exact ih h
    · rw [if_neg hb] at h
      by_cases hh : isHeaderLine (strip l) = true
      · rw [if_pos hh] at h
        have := key rest 0
        simpa [← Option.some.inj h] using this
      · rw [if_neg hh] at h; exact ih h

/-- Closed instance of the cap in `c1_row_caps` at a concrete header input. -/
theorem c1_row_caps_witness :
    ([(("https://a.x").toList, buildingL)] : List Deployment).length ≤ 10 :=
  c1_row_caps.1 ["Age".toList, "3d https://a.x Building".toList]
    [(("https://a.x").toList, buildingL)] (by decide)

/-- Header plus two data rows with lowercase statuses. -/
def c2Input : List Line :=
  ["Age Deployment Status".toList,
   "3d https://a.x building".toList,
   "4d https://b.x queued".toList]

/-- C2 fails on the code: statuses are captured with their source casing
(`building`, `queued`) and the caller performs no normalisation — the
record handed to the deletion loop still carries the lowercase text, which
is not the claimed normalized `Building` / `Queued`. -/
theorem c2_no_normalization_cex :
    parse_deployments false c2Input =
      [("https://a.x".toList, "building".toList),
       ("https://b.x".toList, "queued".toList)] ∧
    toDeleteList (parse_deployments false c2Input) =
      [("https://b.x".toList, "queued".toList)] ∧
    "queued".toList ≠ queuedL ∧ "building".toList ≠ buildingL := by
  refine ⟨by decide, by decide, by decide, by decide⟩

/-- The truncated keyword `Build` (first five characters of `Building`). -/
def buildL : List Char := ['B', 'u', 'i', 'l', 'd']

/-- The truncated keyword `Queue` (first five characters of `Queued`). -/
def queueL : List Char := ['Q', 'u', 'e', 'u', 'e']

/-! When a string contains no case-insensitive occurrence of `Build` or
`Queue`, none of the status patterns can find a keyword in it. -/

theorem no_build_starts {l x : List Char} (hb : containsCI buildL l = false)
    (hx : x <:+ l) : startsCI buildingL x = false := by
  cases h : startsCI buildingL x with
  | false => rfl
  | true =>
    have h5 : startsCI buildL x = true :=
      startsCI_of_append_left (show startsCI (buildL ++ ['i', 'n', 'g']) x = true from h)
    exact absurd (containsCI_of_suffix hx h5) (by simp [hb])

theorem no_queue_starts {l x : List Char} (hq : containsCI queueL l = false)
    (hx : x <:+ l) : startsCI queuedL x = false := by
  cases h : startsCI queuedL x with
  | false => rfl
  | true =>
    have h5 : startsCI queueL x = true :=
      startsCI_of_append_left (show startsCI (queueL ++ ['d']) x = true from h)
    exact absurd (containsCI_of_suffix hx h5) (by simp [hq])

theorem matchKw_words_none {l x : List Char} (hb : containsCI buildL l = false)
    (hq : containsCI queueL l = false) (hx : x <:+ l) : matchKw kwWords x = none := by
  have h1 := no_build_starts hb hx
  have h2 := no_queue_starts hq hx
  have h3 : startsCI buildingLowL x = false :=
    (startsCI_congr (by decide : lowerStr buildingLowL = lowerStr buildingL) x).trans h1
  have h4 : startsCI queuedLowL x = false :=
    (startsCI_congr (by decide : lowerStr queuedLowL = lowerStr queuedL) x).trans h2
  simp [matchKw, kwWords, h1, h2, h3, h4]

theorem matchKw_prefixes_none {l x : List Char} (hb : containsCI buildL l = false)
    (hq : containsCI queueL l = false) (hx : x <:+ l) : matchKw kwPrefixes x = none := by
  have h1 : startsCI buildL x = false := containsCI_false_suffix hb hx
  have h2 : startsCI queueL x = false := containsCI_false_suffix hq hx
  have h1a : startsCI ['B', 'u', 'i', 'l', 'd'] x = false := h1
  have h2a : startsCI ['Q', 'u', 'e', 'u', 'e'] x = false := h2
  have h3 : startsCI ['b', 'u', 'i', 'l', 'd'] x = false :=
    (startsCI_congr (by decide : lowerStr ['b', 'u', 'i', 'l', 'd'] =
      lowerStr ['B', 'u', 'i', 'l', 'd']) x).trans h1a
  have h4 : startsCI ['q', 'u', 'e', 'u', 'e'] x = false :=
    (startsCI_congr (by decide : lowerStr ['q', 'u', 'e', 'u', 'e'] =
      lowerStr ['Q', 'u', 'e', 'u', 'e']) x).trans h2a
  simp [matchKw, kwPrefixes, h1a, h2a, h3, h4]

theorem bulletKwAt_none {l x : List Char} (hb : containsCI buildL l = false)
    (hq : containsCI queueL l = false) (hx : x <:+ l) : bulletKwAt x = none := by
  rw [bulletKwAt.eq_def]
  split
  · rename_i rest
    exact matchKw_words_none hb hq
      ((List.dropWhile_suffix isSpace).trans ((List.suffix_cons '●' rest).trans hx))
  · rfl

theorem f1hit_none {l x : List Char} (hb : containsCI buildL l = false)
    (hq : containsCI queueL l = false) (hx : x <:+ l) : f1hit x = none := by
  have hscan : scanFirst bulletKwAt (dropToken x) = none :=
    scanFirst_eq_none fun y hy =>
      bulletKwAt_none hb hq (hy.trans ((List.dropWhile_suffix _).trans hx))
  have hlast : lastSplit bulletKwAt x = none := by
    rw [lastSplit]
    refine List.findSome?_eq_none_iff.mpr ?_
    intro q _
    have hnone : bulletKwAt (x.drop q) = none :=
      bulletKwAt_none hb hq ((List.drop_suffix q x).trans hx)
    simp [hnone]
  simp [f1hit, hscan, hlast]

theorem f1_none {l : List Char} (hb : containsCI buildL l = false)
    (hq : containsCI queueL l = false) : f1 l = none :=
  scanFirst_eq_none fun x hx => f1hit_none hb hq hx

theorem p4hit_none {l x : List Char} (hb : containsCI buildL l = false)
    (hq : containsCI queueL l = false) (hx : x <:+ l) : p4hit x = none := by
  have hscan : scanFirst (matchKw kwWords) (dropToken x) = none :=
    scanFirst_eq_none fun y hy =>
      matchKw_words_none hb hq (hy.trans ((List.dropWhile_suffix _).trans hx))
  have hlast : lastSplit (matchKw kwWords) x = none := by
    rw [lastSplit]
    refine List.findSome?_eq_none_iff.mpr ?_
    intro q _
    have hnone : matchKw kwWords (x.drop q) = none :=
      matchKw_words_none hb hq ((List.drop_suffix q x).trans hx)
    simp [hnone]
  simp [p4hit, hscan, hlast]

theorem p4fn_none {l : List Char} (hb : containsCI buildL l = false)
    (hq : containsCI queueL l = false) : p4fn l = none :=
  scanFirst_eq_none fun x hx => p4hit_none hb hq hx

theorem spacedKwAt_words_none {l x : List Char} (hb : containsCI buildL l = false)
    (hq : containsCI queueL l = false) (hx : x <:+ l) :
    spacedKwAt kwWords x = none := by
  match x, hx with
  | [], _ => rfl
  | c :: rest, hx =>
    rw [spacedKwAt]
    split
    · exact matchKw_words_none hb hq ((List.suffix_cons c rest).trans hx)
    · rfl

theorem spacedKwAt_prefixes_none {l x : List Char} (hb : containsCI buildL l = false)
    (hq : containsCI queueL l = false) (hx : x <:+ l) :
    spacedKwAt kwPrefixes x = none := by
  match x, hx with
  | [], _ => rfl
  | c :: rest, hx =>
    rw [spacedKwAt]
    split
    · exact matchKw_prefixes_none hb hq ((List.suffix_cons c rest).trans hx)
    · rfl

theorem p3_none {l : List Char} (hb : containsCI buildL l = false)
    (hq : containsCI queueL l = false) : p3 l = none := by
  refine scanFirst_eq_none fun x hx => ?_
  have hscan : scanFirst (spacedKwAt kwWords) (dropToken x) = none :=
    scanFirst_eq_none fun y hy =>
      spacedKwAt_words_none hb hq (hy.trans ((List.dropWhile_suffix _).trans hx))
  simp [p3hit, hscan]

theorem p5_none {l : List Char} (hb : containsCI buildL l = false)
    (hq : containsCI queueL l = false) : p5 l = none := by
  refine scanFirst_eq_none fun x hx => ?_
  have hscan : scanFirst (spacedKwAt kwPrefixes) (dropToken x) = none :=
    scanFirst_eq_none fun y hy =>
      spacedKwAt_prefixes_none hb hq (hy.trans ((List.dropWhile_suffix _).trans hx))
  simp [p3hit, hscan]

/-- C10: the fallback's bare-URL pattern is anchored to the start of the
untrimmed original line; on a headerless line where `https://` is preceded
by any character (for instance leading whitespace) and no status keyword
occurs in the line, the bare-URL pattern fails, so no record is produced
for that line — irrespective of what the neighboring lines contain. -/
theorem c10_anchored_bare_url (lines : List Line) (i : Nat) (l : Line)
    (hanchor : startsCI httpsL l = false)
    (hb : containsCI buildL l = false) (hq : containsCI queueL l = false) :
    f3 l = none ∧ fallbackStep lines i l = [] := by
  have hf3 : f3 l = none := by
    rw [f3, if_neg]
    intro hcon
    rw [hanchor] at hcon
    exact absurd hcon.1 (by simp)
  have hf1 : f1 l = none := f1_none hb hq
  have hp4 : p4fn l = none := p4fn_none hb hq
  refine ⟨hf3, ?_⟩
  rw [fallbackStep]
  split
  · rfl
  · split
    · rw [hf1, hf3, hp4]
    · rfl

/-- Closed instance of `c10_anchored_bare_url`: the URL line has leading
whitespace, and status keywords sit on both neighbor lines. -/
theorem c10_anchored_bare_url_witness :
    f3 " https://a.app".toList = none ∧
    fallbackStep ["Building".toList, " https://a.app".toList, "Queued".toList] 1
      " https://a.app".toList = [] :=
  c10_anchored_bare_url ["Building".toList, " https://a.app".toList, "Queued".toList] 1
    " https://a.app".toList (by decide) (by decide) (by decide)

theorem containsSub_of_suffix {kw x : List Char} :
    ∀ {l : List Char}, x <:+ l → startsCS kw x = true → containsSub kw l = true := by
  intro l hx hs
  obtain ⟨t, rfl⟩ := hx
  induction t with
  | nil =>
    cases x with
    | nil => simpa [containsSub] using hs
    | cons c r => simp [containsSub, hs]
  | cons c t ih => simp [containsSub, ih]

theorem urlSearch_contains {x u : List Char} (h : urlSearch x = some u) :
    containsSub httpsL x = true := by
  obtain ⟨y, hy, hhit⟩ := scanFirst_eq_some h
  rw [urlSearchHit] at hhit
  split at hhit
  · rename_i hc
    exact containsSub_of_suffix hy hc.1
  · exact absurd hhit (by simp)

theorem aggressive_unset (uls : List Line) : aggressive false uls = [] := by
  rw [aggressive]
  refine List.filterMap_eq_nil_iff.mpr ?_
  intro p _
  split
  · rcases h : urlSearch p.2 with _ | u <;> simp [h]
  · rfl

theorem aggressive_set3 {ul0 ul1 ul2 : Line} {rest : List Line} {u0 u1 u2 : List Char}
    (h0 : urlSearch ul0 = some u0) (h1 : urlSearch ul1 = some u1)
    (h2 : urlSearch ul2 = some u2) :
    aggressive true (ul0 :: ul1 :: ul2 :: rest) =
      [(u0, buildingL), (u1, queuedL), (u2, queuedL)] := by
  have hc0 := urlSearch_contains h0
  have hc1 := urlSearch_contains h1
  have hc2 := urlSearch_contains h2
  rw [aggressive]
  rw [show (ul0 :: ul1 :: ul2 :: rest).take 3 = [ul0, ul1, ul2] from rfl]
  rw [show ([ul0, ul1, ul2] : List Line).enum = [(0, ul0), (1, ul1), (2, ul2)] from rfl]
  simp [List.filterMap_cons, hc0, hc1, hc2, h0, h1, h2]

/-- C4: aggressive-fallback gating.  On an output with no header, an empty
fallback parse, and at least three URL lines, the final result is empty
when the opt-in flag is unset; with the flag set it consists of the first
three URL lines' URLs, in document order, with guessed statuses
`[Building, Queued, Queued]`. -/
theorem c4_aggressive_gate (lines : List Line)
    (hnohdr : primaryParse lines = none)
    (hfb : fallbackParse lines = [])
    (ul0 ul1 ul2 : Line) (rest : List Line)
    (hu : urlLines lines = ul0 :: ul1 :: ul2 :: rest)
    (u0 u1 u2 : List Char)
    (h0 : urlSearch ul0 = some u0) (h1 : urlSearch ul1 = some u1)
    (h2 : urlSearch ul2 = some u2) :
    parse_deployments false lines = [] ∧
    parse_deployments true lines =
      [(u0, buildingL), (u1, queuedL), (u2, queuedL)] := by
  have hbase : ∀ ac : Bool, parse_deployments ac lines =
      if fallbackParse lines = [] ∧ 3 ≤ (urlLines lines).length then
        fallbackParse lines ++ aggressive ac (urlLines lines)
      else fallbackParse lines := by
    intro ac
    simp only [parse_deployments, hnohdr]
  have hlen : 3 ≤ (urlLines lines).length := by rw [hu]; simp
  constructor
  · rw [hbase false, if_pos ⟨hfb, hlen⟩, hfb, aggressive_unset, List.nil_append]
  · rw [hbase true, if_pos ⟨hfb, hlen⟩, hfb, hu, aggressive_set3 h0 h1 h2,
      List.nil_append]

/-- Four headerless lines, each a bare URL. -/
def c4Input : List Line :=
  ["https://a.app".toList, "https://b.app".toList,
   "https://c.app".toList, "https://d.app".toList]

/-- Closed instance of `c4_aggressive_gate` with satisfied hypotheses. -/
theorem c4_aggressive_gate_witness :
    parse_deployments false c4Input = [] ∧
    parse_deployments true c4Input =
      [("https://a.app".toList, buildingL), ("https://b.app".toList, queuedL),
       ("https://c.app".toList, queuedL)] :=
  c4_aggressive_gate c4Input (by decide) (by decide)
    "https://a.app".toList "https://b.app".toList "https://c.app".toList
    ["https://d.app".toList] (by decide)
    "https://a.app".toList "https://b.app".toList "https://c.app".toList
    (by decide) (by decide) (by decide)

theorem mem_enumFrom_of_get {α : Type} :
    ∀ (l : List α) (k i : Nat) (x : α), l.get? i = some x →
      (k + i, x) ∈ List.enumFrom k l := by
  intro l
  induction l with
  | nil => intro k i x h; simp at h
  | cons a t ih =>
    intro k i x h
    cases i with
    | zero =>
      simp only [List.get?] at h
      simp [List.enumFrom, Option.some.inj h]
    | succ j =>
      refine List.mem_cons.mpr (Or.inr ?_)
      have heq : k + (j + 1) = (k + 1) + j := by omega
      rw [heq]
      exact ih (k + 1) j x (by simpa using h)

theorem mem_fallbackParse {lines : List Line} {i : Nat} {l : Line} {r : Deployment}
    (hget : lines.get? i = some l) (hr : r ∈ fallbackStep lines i l) :
    r ∈ fallbackParse lines := by
  rw [fallbackParse]
  refine List.mem_flatten.mpr ⟨fallbackStep lines i l, ?_, hr⟩
  refine List.mem_map.mpr ⟨(i, l), ?_, rfl⟩
  have h := mem_enumFrom_of_get lines 0 i l hget
  simpa [List.enum] using h

theorem mem_neighborIdx {len i j : Nat} (h : j ∈ neighborIdx len i) :
    i - 2 ≤ j ∧ j < min len (i + 3) ∧ j ≠ i := by
  rw [neighborIdx] at h
  have h2 := List.mem_filter.mp h
  have h3 := List.mem_range'_1.mp h2.1
  refine ⟨h3.1, ?_, by simpa using h2.2⟩
  omega

theorem self2_mem_neighborIdx {len i : Nat} (h : i + 2 < len) :
    i + 2 ∈ neighborIdx len i := by
  rw [neighborIdx]
  refine List.mem_filter.mpr ⟨List.mem_range'_1.mpr ⟨by omega, by omega⟩, ?_⟩
  have hne : i + 2 ≠ i := by omega
  simpa using hne

theorem findSome?_window {α : Type} (f : Nat → Option α) (t : Nat) (s : α) :
    ∀ (js : List Nat), (∀ j ∈ js, j ≤ t) → (∀ j ∈ js, j < t → f j = none) →
      t ∈ js → f t = some s → js.findSome? f = some s := by
  intro js
  induction js with
  | nil => intro _ _ ht _; simp at ht
  | cons j rest ih =>
    intro hb hn ht hs
    by_cases hjt : j = t
    · subst hjt
      simp [List.findSome?_cons, hs]
    · have hjlt : j < t := Nat.lt_of_le_of_ne (hb j (by simp)) hjt
      simp only [List.findSome?_cons, hn j (by simp) hjlt]
      refine ih (fun a ha => hb a (by simp [ha])) (fun a ha => hn a (by simp [ha]))
        ?_ hs
      rcases List.mem_cons.mp ht with h | h
      · exact absurd h.symm hjt
      · exact h

/-- C5: the fallback neighborhood search examines exactly the offsets
-2..+2 around a bare-URL line.  First part: with a whole-word status
keyword only at index `i + 2` (and at no other index of the window), the
parser pairs the bare URL with that status.  Second part: when no line of
the window carries a whole-word status keyword — in particular when the
only keyword sits at `i + 3` — the line yields no record at all. -/
theorem c5_neighborhood_window :
    (∀ (lines : List Line) (i : Nat) (l l2 : Line) (url st : List Char),
        lines.get? i = some l →
        strip l ≠ [] → startsCS gtL (strip l) = false →
        startsCS learnL (strip l) = false →
        containsSub httpsL l = true →
        f1 l = none → p4fn l = none → f3 l = some url →
        lines.get? (i + 2) = some l2 →
        findWordKw none (strip l2) = some st →
        (∀ (j : Nat) (lj : Line), j ≠ i → j ≠ i + 2 → i - 2 ≤ j → j < i + 3 →
          lines.get? j = some lj → findWordKw none (strip lj) = none) →
        (url, st) ∈ fallbackParse lines) ∧
    (∀ (lines : List Line) (i : Nat) (l : Line) (url : List Char),
        f1 l = none → p4fn l = none → f3 l = some url →
        (∀ (j : Nat) (lj : Line), j ≠ i → i - 2 ≤ j → j < i + 3 →
          lines.get? j = some lj → findWordKw none (strip lj) = none) →
        fallbackStep lines i l = []) := by
  constructor
  · intro lines i l l2 url st hget hs1 hs2 hs3 hhttps hf1 hp4 hf3 hl2 hst hnone
    have hnb : neighborhood lines i = some st := by
      rw [neighborhood]
      refine findSome?_window _ (i + 2) st _ ?_ ?_ ?_ ?_
      · intro j hj
        have hm := mem_neighborIdx hj
        omega
      · intro j hj hjlt
        have hm := mem_neighborIdx hj
        cases hg : lines.get? j with
        | none => simp
        | some lj => exact hnone j lj hm.2.2 (by omega) hm.1 (by omega) hg
      · obtain ⟨hlt, -⟩ := List.get?_eq_some.mp hl2
        exact self2_mem_neighborIdx hlt
      · rw [hl2]
        exact hst
    have hskip : ¬(strip l = [] ∨ startsCS gtL (strip l) = true ∨
        startsCS learnL (strip l) = true) := by
      intro h
      rcases h with h | h | h
      · exact hs1 h
      · rw [hs2] at h; exact Bool.false_ne_true h
      · rw [hs3] at h; exact Bool.false_ne_true h
    have hstep : fallbackStep lines i l = [(url, st)] := by
      rw [fallbackStep, if_neg hskip, if_pos hhttps, hf1, hp4, hf3, hnb]
    exact mem_fallbackParse hget (by rw [hstep]; exact List.mem_singleton.mpr rfl)
  · intro lines i l url hf1 hp4 hf3 hnone
    have hnb : neighborhood lines i = none := by
      rw [neighborhood]
      refine List.findSome?_eq_none_iff.mpr ?_
      intro j hj
      have hm := mem_neighborIdx hj
      cases hg : lines.get? j with
      | none => simp
      | some lj => exact hnone j lj hm.2.2 hm.1 (by omega) hg
    rw [fallbackStep]
    split
    · rfl
    · split
      · rw [hf1, hp4, hf3, hnb]
      · rfl

/-- Five lines for the C5 witness: a bare URL at index 2 and a keyword only
at index 4. -/
def c5Input : List Line :=
  ["alpha".toList, "beta".toList, "https://u.app".toList, "gamma".toList,
   "Building now".toList]

/-- Closed instance of the first part of `c5_neighborhood_window`. -/
theorem c5_neighborhood_window_witness :
    ("https://u.app".toList, buildingL) ∈ fallbackParse c5Input := by
  refine c5_neighborhood_window.1 c5Input 2 "https://u.app".toList
    "Building now".toList "https://u.app".toList buildingL
    (by decide) (by decide) (by decide) (by decide) (by decide)
    (by decide) (by decide) (by decide) (by decide) (by decide) ?_
  intro j lj hne hne2 _ hhi hget
  interval_cases j
  · rw [show c5Input.get? 0 = some "alpha".toList from rfl] at hget
    rw [← Option.some.inj hget]
    decide
  · rw [show c5Input.get? 1 = some "beta".toList from rfl] at hget
    rw [← Option.some.inj hget]
    decide
  · exact absurd rfl hne
  · rw [show c5Input.get? 3 = some "gamma".toList from rfl] at hget
    rw [← Option.some.inj hget]
    decide
  · exact absurd rfl hne2

/-- The lowercase forms a captured status can take: full keywords from the
status alternations and the neighborhood search, truncated keywords from
primary pattern 5. -/
def lowStatuses : List (List Char) :=
  [buildingLowL, queuedLowL, ['b', 'u', 'i', 'l', 'd'], ['q', 'u', 'e', 'u', 'e']]

theorem lowerStr_take_of_startsCI : ∀ {kw x : List Char}, startsCI kw x = true →
    lowerStr (x.take kw.length) = lowerStr kw := by
  intro kw
  induction kw with
  | nil => intro x _; rfl
  | cons c cs ih =>
    intro x h
    cases x with
    | nil => simp [startsCI] at h
    | cons d ds =>
      rw [startsCI, Bool.and_eq_true] at h
      have hcd : lowChar d = lowChar c := (beq_iff_eq.mp h.1).symm
      simp [lowerStr, List.take, hcd]
      simpa [lowerStr] using ih h.2

theorem matchKw_some {x s : List Char} :
    ∀ {ks : List (List Char)}, matchKw ks x = some s →
      ∃ kw ∈ ks, startsCI kw x = true ∧ s = x.take kw.length := by
  intro ks
  induction ks with
  | nil => intro h; simp [matchKw] at h
  | cons kw rest ih =>
    intro h
    rw [matchKw] at h
    split at h
    · exact ⟨kw, by simp, by assumption, (Option.some.inj h).symm⟩
    · obtain ⟨k, hk, h1, h2⟩ := ih h
      exact ⟨k, by simp [hk], h1, h2⟩

theorem matchKw_words_status {x s : List Char} (h : matchKw kwWords x = some s) :
    lowerStr s ∈ lowStatuses := by
  obtain ⟨kw, hkw, hst, rfl⟩ := matchKw_some h
  rw [lowerStr_take_of_startsCI hst]
  simp only [kwWords, List.mem_cons, List.not_mem_nil, or_false] at hkw
  rcases hkw with rfl | rfl | rfl | rfl <;> decide

theorem matchKw_prefixes_status {x s : List Char} (h : matchKw kwPrefixes x = some s) :
    lowerStr s ∈ lowStatuses := by
  obtain ⟨kw, hkw, hst, rfl⟩ := matchKw_some h
  rw [lowerStr_take_of_startsCI hst]
  simp only [kwPrefixes, List.mem_cons, List.not_mem_nil, or_false] at hkw
  rcases hkw with rfl | rfl | rfl | rfl <;> decide

theorem spacedKwAt_status {kws : List (List Char)}
    (hp : ∀ y s, matchKw kws y = some s → lowerStr s ∈ lowStatuses) :
    ∀ x s, spacedKwAt kws x = some s → lowerStr s ∈ lowStatuses := by
  intro x s h
  cases x with
  | nil => simp [spacedKwAt] at h
  | cons c rest =>
    simp only [spacedKwAt] at h
    split at h
    · exact hp rest s h
    · simp at h

theorem bulletKwAt_status :
    ∀ x s, bulletKwAt x = some s → lowerStr s ∈ lowStatuses := by
  intro x s h
  rw [bulletKwAt.eq_def] at h
  split at h
  · exact matchKw_words_status h
  · simp at h

theorem lastSplit_status {hit : List Char → Option (List Char)}
    (hp : ∀ x s, hit x = some s → lowerStr s ∈ lowStatuses) :
    ∀ l r, lastSplit hit l = some r → lowerStr r.2 ∈ lowStatuses := by
  intro l r h
  rw [lastSplit] at h
  obtain ⟨q, _, hfq⟩ := List.exists_of_findSome?_eq_some h
  split at hfq
  · obtain ⟨s, hs, rfl⟩ := Option.map_eq_some'.mp hfq
    exact hp _ s hs
  · simp at hfq

theorem p1_status : ∀ (l : Line) (r : Deployment), p1 l = some r →
    lowerStr r.2 ∈ lowStatuses := by
  intro l r h
  simp only [p1] at h
  repeat' split at h
  all_goals first
    | exact Option.noConfusion h
    | (rename_i hm
       cases h
       exact matchKw_words_status hm)

theorem p2_status : ∀ (l : Line) (r : Deployment), p2 l = some r →
    lowerStr r.2 ∈ lowStatuses := by
  intro l r h
  simp only [p2] at h
  repeat' split at h
  all_goals first
    | exact Option.noConfusion h
    | (rename_i hm
       cases h
       exact matchKw_words_status hm)

theorem p3hit_status {kws : List (List Char)}
    (hp : ∀ y s, matchKw kws y = some s → lowerStr s ∈ lowStatuses) :
    ∀ (l : Line) (r : Deployment), p3hit kws l = some r →
      lowerStr r.2 ∈ lowStatuses := by
  intro l r h
  simp only [p3hit] at h
  repeat' split at h
  all_goals first
    | exact Option.noConfusion h
    | (rename_i hm
       cases h
       obtain ⟨x, -, hx⟩ := scanFirst_eq_some hm
       exact spacedKwAt_status hp x _ hx)

theorem p4hit_status : ∀ (l : Line) (r : Deployment), p4hit l = some r →
    lowerStr r.2 ∈ lowStatuses := by
  intro l r h
  simp only [p4hit] at h
  repeat' split at h
  all_goals first
    | exact Option.noConfusion h
    | exact lastSplit_status (fun x s hx => matchKw_words_status hx) l r h
    | (rename_i hm
       cases h
       obtain ⟨x, -, hx⟩ := scanFirst_eq_some hm
       exact matchKw_words_status hx)

theorem f1hit_status : ∀ (l : Line) (r : Deployment), f1hit l = some r →
    lowerStr r.2 ∈ lowStatuses := by
  intro l r h
  simp only [f1hit] at h
  repeat' split at h
  all_goals first
    | exact Option.noConfusion h
    | exact lastSplit_status bulletKwAt_status l r h
    | (rename_i hm
       cases h
       obtain ⟨x, -, hx⟩ := scanFirst_eq_some hm
       exact bulletKwAt_status x _ hx)

theorem p4hit_status_scan : ∀ (l : Line) (r : Deployment), p4fn l = some r →
    lowerStr r.2 ∈ lowStatuses := by
  intro l r h
  obtain ⟨x, -, hx⟩ := scanFirst_eq_some h
  exact p4hit_status x r hx

theorem matchPatterns_status : ∀ (l : Line) (r : Deployment),
    matchPatterns l = some r → lowerStr r.2 ∈ lowStatuses := by
  intro l r h
  cases hp1 : p1 l with
  | some r1 =>
    rw [matchPatterns, hp1] at h
    cases h
    exact p1_status l r hp1
  | none =>
  cases hp2 : p2 l with
  | some r2 =>
    rw [matchPatterns, hp1, hp2] at h
    cases h
    exact p2_status l r hp2
  | none =>
  cases hp3 : p3 l with
  | some r3 =>
    rw [matchPatterns, hp1, hp2, hp3] at h
    cases h
    obtain ⟨x, -, hx⟩ := scanFirst_eq_some hp3
    exact p3hit_status (fun y s hy => matchKw_words_status hy) x r hx
  | none =>
  cases hp4 : p4fn l with
  | some r4 =>
    rw [matchPatterns, hp1, hp2, hp3, hp4] at h
    cases h
    exact p4hit_status_scan l r hp4
  | none =>
    rw [matchPatterns, hp1, hp2, hp3, hp4] at h
    obtain ⟨x, -, hx⟩ := scanFirst_eq_some h
    exact p3hit_status (fun y s hy => matchKw_prefixes_status hy) x r hx

theorem matchWordKw_status {prev : Option Char} {l s : List Char}
    (h : matchWordKw prev l = some s) : lowerStr s ∈ lowStatuses := by
  rw [matchWordKw] at h
  obtain ⟨kw, hkw, hfk⟩ := List.exists_of_findSome?_eq_some h
  split at hfk
  · rename_i hcond
    rw [Bool.and_eq_true, Bool.and_eq_true] at hcond
    cases hfk
    rw [lowerStr_take_of_startsCI hcond.1.1]
    simp only [kwWords, List.mem_cons, List.not_mem_nil, or_false] at hkw
    rcases hkw with rfl | rfl | rfl | rfl <;> decide
  · simp at hfk

set_option maxHeartbeats 1600000 in
theorem findWordKw_status : ∀ (prev : Option Char) (l s : List Char),
    findWordKw prev l = some s → lowerStr s ∈ lowStatuses := by
  intro prev l
  induction l generalizing prev with
  | nil => intro s h; simp [findWordKw] at h
  | cons c rest ih =>
    intro s h
    simp only [findWordKw] at h
    cases hm : matchWordKw prev (c :: rest) with
    | some t =>
      rw [hm] at h
      cases h
      exact matchWordKw_status hm
    | none =>
      rw [hm] at h
      exact ih (some c) s h

theorem neighborhood_status {lines : List Line} {i : Nat} {st : List Char}
    (h : neighborhood lines i = some st) : lowerStr st ∈ lowStatuses := by
  rw [neighborhood] at h
  obtain ⟨j, -, hj⟩ := List.exists_of_findSome?_eq_some h
  cases hg : lines.get? j with
  | none => rw [hg] at hj; exact absurd hj (by simp)
  | some lj =>
    rw [hg] at hj
    exact findWordKw_status none (strip lj) st hj

theorem primaryRows_status : ∀ (ls : List Line) (cnt : Nat) (r : Deployment),
    r ∈ primaryRows ls cnt → lowerStr r.2 ∈ lowStatuses := by
  intro ls
  induction ls with
  | nil => intro cnt r hr; simp [primaryRows] at hr
  | cons l rest ih =>
    intro cnt r hr
    rw [primaryRows] at hr
    split at hr
    · exact ih cnt r hr
    · split at hr
      · simp at hr
      · split at hr
        · rename_i rm hm
          rcases List.mem_cons.mp hr with rfl | hr2
          · exact matchPatterns_status l r hm
          · exact ih (cnt + 1) r hr2
        · exact ih (cnt + 1) r hr

theorem primaryParse_status : ∀ (lines : List Line) (ds : List Deployment),
    primaryParse lines = some ds → ∀ r ∈ ds, lowerStr r.2 ∈ lowStatuses := by
  intro lines
  induction lines with
  | nil => intro ds h; simp [primaryParse] at h
  | cons l rest ih =>
    intro ds h
    rw [primaryParse] at h
    split at h
    · exact ih ds h
    · split at h
      · cases h
        intro r hr
        exact primaryRows_status rest 0 r hr
      · exact ih ds h

theorem fallbackStep_status {lines : List Line} {i : Nat} {l : Line} {r : Deployment}
    (hr : r ∈ fallbackStep lines i l) : lowerStr r.2 ∈ lowStatuses := by
  rw [fallbackStep] at hr
  split at hr
  · simp at hr
  · split at hr
    · split at hr
      · rename_i r1 hm
        obtain rfl := List.mem_singleton.mp hr
        obtain ⟨x, -, hx⟩ := scanFirst_eq_some hm
        exact f1hit_status x r hx
      · split at hr
        · rename_i r2 hm
          obtain rfl := List.mem_singleton.mp hr
          exact p4hit_status_scan l r hm
        · split at hr
          · split at hr
            · rename_i hnb
              rw [List.mem_singleton.mp hr]
              exact neighborhood_status hnb
            · simp at hr
          · simp at hr
    · simp at hr

theorem fallbackParse_status {lines : List Line} {r : Deployment}
    (hr : r ∈ fallbackParse lines) : lowerStr r.2 ∈ lowStatuses := by
  rw [fallbackParse] at hr
  obtain ⟨s, hs, hrs⟩ := List.mem_flatten.mp hr
  obtain ⟨p, -, rfl⟩ := List.mem_map.mp hs
  exact fallbackStep_status hrs

theorem aggressive_status {ac : Bool} {uls : List Line} {r : Deployment}
    (hr : r ∈ aggressive ac uls) : lowerStr r.2 ∈ lowStatuses := by
  rw [aggressive] at hr
  obtain ⟨p, -, hp⟩ := List.mem_filterMap.mp hr
  split at hp
  · split at hp
    · split at hp
      · cases hp
        show lowerStr (if p.1 = 0 then buildingL else queuedL) ∈ lowStatuses
        split
        · decide
        · decide
      · simp at hp
    · simp at hp
  · simp at hp

/-- C2, amended: every status the parser can produce (via any strategy)
lowercases to `building`, `queued`, `build`, or `queue` — matching is
case-insensitive and the capture keeps the source casing — and the caller
consumes those statuses verbatim: the statuses of the to-delete records are
exactly the parsed statuses from position 2 on, with no normalisation
anywhere. -/
theorem c2_status_casing :
    (∀ (ac : Bool) (lines : List Line) (r : Deployment),
        r ∈ parse_deployments ac lines → lowerStr r.2 ∈ lowStatuses) ∧
    (∀ ds : List Deployment,
        (toDeleteList ds).map Prod.snd = (ds.map Prod.snd).drop 1) := by
  constructor
  · intro ac lines r hr
    rw [parse_deployments] at hr
    split at hr
    · rcases List.mem_append.mp hr with hr1 | hr2
      · revert hr1
        split
        · intro hr1
          rename_i hds
          exact primaryParse_status lines _ hds r hr1
        · intro hr1
          exact fallbackParse_status hr1
      · exact aggressive_status hr2
    · revert hr
      split
      · intro hr
        rename_i hds
        exact primaryParse_status lines _ hds r hr
      · intro hr
        exact fallbackParse_status hr
  · intro ds
    rw [toDeleteList_eq_drop]
    exact List.map_drop Prod.snd ds 1

/-- Closed instance of `c2_status_casing` at a record produced from
`c2Input`: the record's status lowercases into the allowed set (and, per
`c2_no_normalization_cex`, stays lowercase all the way down). -/
theorem c2_status_casing_witness : lowerStr "building".toList ∈ lowStatuses :=
  c2_status_casing.1 false c2Input ("https://a.x".toList, "building".toList)
    (by decide)

theorem containsSub_exists {kw : List Char} :
    ∀ {l : List Char}, containsSub kw l = true →
      ∃ x, x <:+ l ∧ startsCS kw x = true := by
  intro l
  induction l with
  | nil =>
    intro hc
    rw [containsSub] at hc
    exact ⟨[], List.suffix_rfl, hc⟩
  | cons c r ih =>
    intro hc
    rw [containsSub, Bool.or_eq_true] at hc
    rcases hc with hc | hc
    · exact ⟨c :: r, List.suffix_rfl, hc⟩
    · obtain ⟨x, hx, hs⟩ := ih hc
      exact ⟨x, hx.trans (List.suffix_cons c r), hs⟩

theorem startsCS_head {k : Char} {kr x : List Char} (h : startsCS (k :: kr) x = true) :
    ∃ ds, x = k :: ds := by
  cases x with
  | nil => simp [startsCS] at h
  | cons d ds =>
    rw [startsCS, Bool.and_eq_true] at h
    exact ⟨ds, by rw [beq_iff_eq.mp h.1]⟩

/-- C7: header classification.  First part: the first non-blank line whose
stripped text contains a header keyword (case-sensitively) is the header,
and parsing continues with the lines after it.  Second part: once in the
data phase, every non-blank line — including one containing the same
keywords — is fed to the pattern matcher as a data row; no header check is
performed.  Third part: a line without any uppercase ASCII letter (such as
a lowercase `status`) is never classified as a header. -/
theorem c7_header_classification :
    (∀ (pre : List Line) (hd : Line) (rest : List Line),
        (∀ l ∈ pre, strip l = [] ∨ isHeaderLine (strip l) = false) →
        strip hd ≠ [] → isHeaderLine (strip hd) = true →
        primaryParse (pre ++ hd :: rest) = some (primaryRows rest 0)) ∧
    (∀ (l : Line) (rest : List Line) (cnt : Nat),
        strip l ≠ [] → cnt + 1 ≤ 10 →
        primaryRows (l :: rest) cnt =
          (matchPatterns l).toList ++ primaryRows rest (cnt + 1)) ∧
    (∀ l : Line, (∀ c ∈ l, ¬('A' ≤ c ∧ c ≤ 'Z')) → isHeaderLine l = false) := by
  refine ⟨?_, ?_, ?_⟩
  · intro pre
    induction pre with
    | nil =>
      intro hd rest _ hne hhd
      rw [List.nil_append, primaryParse, if_neg hne, if_pos hhd]
    | cons p pre ih =>
      intro hd rest hpre hne hhd
      rw [List.cons_append, primaryParse]
      rcases hpre p (by simp) with hp | hp
      · rw [if_pos hp]
        exact ih hd rest (fun l hl => hpre l (by simp [hl])) hne hhd
      · by_cases hpb : strip p = []
        · rw [if_pos hpb]
          exact ih hd rest (fun l hl => hpre l (by simp [hl])) hne hhd
        · rw [if_neg hpb, if_neg (by rw [hp]; exact Bool.false_ne_true)]
          exact ih hd rest (fun l hl => hpre l (by simp [hl])) hne hhd
  · intro l rest cnt hne hcnt
    rw [primaryRows, if_neg hne, if_neg (by omega)]
    cases hm : matchPatterns l with
    | some r => simp
    | none => simp
  · intro l hupper
    cases hh : isHeaderLine l with
    | false => rfl
    | true =>
      exfalso
      rw [isHeaderLine, List.any_eq_true] at hh
      obtain ⟨kw, hkw, hc⟩ := hh
      have hfirst : ∃ k kr, kw = k :: kr ∧ 'A' ≤ k ∧ k ≤ 'Z' := by
        simp only [headerKws, List.mem_cons, List.not_mem_nil, or_false] at hkw
        rcases hkw with rfl | rfl | rfl | rfl | rfl
        · exact ⟨'A', _, rfl, by decide, by decide⟩
        · exact ⟨'D', _, rfl, by decide, by decide⟩
        · exact ⟨'S', _, rfl, by decide, by decide⟩
        · exact ⟨'E', _, rfl, by decide, by decide⟩
        · exact ⟨'D', _, rfl, by decide, by decide⟩
      obtain ⟨k, kr, rfl, hA, hZ⟩ := hfirst
      obtain ⟨x, hx, hs⟩ := containsSub_exists hc
      obtain ⟨ds, rfl⟩ := startsCS_head hs
      exact hupper k (hx.subset (by simp)) ⟨hA, hZ⟩

/-- Closed instance of all three parts of `c7_header_classification`:
blank and non-keyword noise precedes the header; a data row containing the
keyword `Status` is pattern-matched, not re-classified; a lowercase
keyword line is not a header. -/
theorem c7_header_classification_witness :
    primaryParse (["".toList, "vercel output noise".toList] ++
        "Age Deployment Status".toList :: ["3d https://a.x Building".toList]) =
      some (primaryRows ["3d https://a.x Building".toList] 0) ∧
    primaryRows ("4d Status https://b.x Queued".toList :: []) 0 =
      (matchPatterns "4d Status https://b.x Queued".toList).toList ++
        primaryRows [] 1 ∧
    isHeaderLine "age status environment duration".toList = false := by
  refine ⟨c7_header_classification.1 ["".toList, "vercel output noise".toList]
      "Age Deployment Status".toList ["3d https://a.x Building".toList]
      ?_ (by decide) (by decide),
    c7_header_classification.2.1 "4d Status https://b.x Queued".toList [] 0
      (by decide) (by decide),
    c7_header_classification.2.2 "age status environment duration".toList (by decide)⟩
  intro l hl
  rcases List.mem_cons.mp hl with rfl | hl2
  · left; decide
  · rcases List.mem_cons.mp hl2 with rfl | hl3
    · right; decide
    · simp at hl3

/-! Shape lemmas for scanning over well-formed table rows. -/

theorem takeWhile_append_stop {p : Char → Bool} :
    ∀ (xs : List Char) {y : Char} (ys : List Char), (∀ c ∈ xs, p c = true) →
      p y = false → (xs ++ y :: ys).takeWhile p = xs := by
  intro xs
  induction xs with
  | nil =>
    intro y ys _ hy
    rw [List.nil_append, List.takeWhile_cons_of_neg (by simp [hy])]
  | cons x xs ih =>
    intro y ys hall hy
    rw [List.cons_append, List.takeWhile_cons_of_pos (hall x (by simp))]
    rw [ih ys (fun c hc => hall c (by simp [hc])) hy]

theorem dropWhile_append_stop {p : Char → Bool} :
    ∀ (xs : List Char) {y : Char} (ys : List Char), (∀ c ∈ xs, p c = true) →
      p y = false → (xs ++ y :: ys).dropWhile p = y :: ys := by
  intro xs
  induction xs with
  | nil =>
    intro y ys _ hy
    rw [List.nil_append, List.dropWhile_cons_of_neg (by simp [hy])]
  | cons x xs ih =>
    intro y ys hall hy
    rw [List.cons_append, List.dropWhile_cons_of_pos (hall x (by simp))]
    exact ih ys (fun c hc => hall c (by simp [hc])) hy

theorem startsCS_exists {ps : List Char} :
    ∀ {l : List Char}, startsCS ps l = true → ∃ t, l = ps ++ t := by
  induction ps with
  | nil => intro l _; exact ⟨l, rfl⟩
  | cons c cs ih =>
    intro l h
    cases l with
    | nil => simp [startsCS] at h
    | cons d ds =>
      rw [startsCS, Bool.and_eq_true] at h
      obtain ⟨t, rfl⟩ := ih h.2
      exact ⟨t, by rw [beq_iff_eq.mp h.1]; rfl⟩

theorem startsCI_refl_append : ∀ (ps ys : List Char), startsCI ps (ps ++ ys) = true := by
  intro ps ys
  induction ps with
  | nil => rfl
  | cons c cs ih => simp [startsCI, ih]

theorem startsCI_iff_lower : ∀ (kw x : List Char),
    startsCI kw x = true ↔ lowerStr kw <+: lowerStr x := by
  intro kw
  induction kw with
  | nil => intro x; simp [startsCI, lowerStr]
  | cons c cs ih =>
    intro x
    cases x with
    | nil => simp [startsCI, lowerStr]
    | cons d ds =>
      rw [startsCI, Bool.and_eq_true]
      simp only [lowerStr, List.map_cons, List.cons_prefix_cons]
      rw [beq_iff_eq]
      exact and_congr Iff.rfl (by simpa [lowerStr] using ih ds)

theorem isSpace_lowChar (c : Char) : isSpace (lowChar c) = isSpace c := by
  rw [lowChar.eq_def]
  split <;> rfl

theorem startsCI_head_ne {k d : Char} (h : (lowChar k == lowChar d) = false)
    (kr ds : List Char) : startsCI (k :: kr) (d :: ds) = false := by
  rw [startsCI, h, Bool.false_and]

theorem containsCI_cons_ne {k d : Char} {kr X : List Char}
    (h : (lowChar k == lowChar d) = false) :
    containsCI (k :: kr) (d :: X) = containsCI (k :: kr) X := by
  rw [containsCI, startsCI_head_ne h, Bool.false_or]

theorem startsCI_space_block {kw : List Char} (hkw : ∀ c ∈ kw, isSpace c = false) :
    ∀ (xs ys : List Char), startsCI kw (xs ++ ' ' :: ys) = true →
      startsCI kw xs = true := by
  induction kw with
  | nil => intro xs ys _; rfl
  | cons k kr ih =>
    intro xs ys h
    cases xs with
    | nil =>
      rw [List.nil_append, startsCI, Bool.and_eq_true] at h
      exfalso
      have hk : isSpace (lowChar k) = false := by
        rw [isSpace_lowChar]; exact hkw k (by simp)
      rw [beq_iff_eq.mp h.1] at hk
      exact absurd hk (by decide)
    | cons x xs' =>
      rw [List.cons_append, startsCI, Bool.and_eq_true] at h
      rw [startsCI, Bool.and_eq_true]
      exact ⟨h.1, ih (fun c hc => hkw c (by simp [hc])) xs' ys h.2⟩

theorem dropWhile_append_singleton_ne {p : Char → Bool} {c : Char} (hc : p c = false) :
    ∀ ys : List Char, (ys ++ [c]).dropWhile p ≠ [] := by
  intro ys
  induction ys with
  | nil => simp [List.dropWhile_cons, hc]
  | cons y ys ih =>
    rw [List.cons_append, List.dropWhile_cons]
    split
    · exact ih
    · simp

theorem strip_ne_nil {c : Char} (hc : isSpace c = false) (t : List Char) :
    strip (c :: t) ≠ [] := by
  rw [strip, List.dropWhile_cons, hc]
  simp only [Bool.false_eq_true, if_false, List.reverse_cons]
  intro h
  rw [List.reverse_eq_nil_iff] at h
  exact dropWhile_append_singleton_ne hc t.reverse h

theorem scanFirst_append_none {g : List Char → Option α} :
    ∀ (xs ys : List Char), (∀ n, n < xs.length → g (xs.drop n ++ ys) = none) →
      scanFirst g (xs ++ ys) = scanFirst g ys := by
  intro xs ys
  induction xs with
  | nil => intro _; rfl
  | cons x xs' ih =>
    intro h
    rw [List.cons_append, scanFirst]
    have h0 : g (x :: (xs' ++ ys)) = none := by simpa using h 0 (by simp)
    rw [h0]
    exact ih fun n hn => by simpa using h (n + 1) (by simpa using hn)

/-- A well-formed table data row as described by the spec for the primary
parser: an age token, a URL, an optional bullet, and a status token,
rendered in the tabular shape that extraction patterns 1 and 2 target. -/
structure Row where
  age : List Char
  url : List Char
  bullet : Bool
  status : List Char

/-- The text after the URL: `" ● status"` with a bullet (pattern 1's
shape), `" status"` without (pattern 2's shape). -/
def Row.sepst (r : Row) : List Char :=
  if r.bullet then ' ' :: '●' :: ' ' :: r.status else ' ' :: r.status

/-- The rendered row line: `age url ● status` / `age url status`. -/
def Row.render (r : Row) : Line := r.age ++ ' ' :: (r.url ++ r.sepst)

/-- Whether the row's status is transient (`Building` / `Queued`,
case-insensitively). -/
def Row.transient (r : Row) : Bool :=
  lowerStr r.status == buildingLowL || lowerStr r.status == queuedLowL

/-- Well-formedness of a row: non-empty space-free age token; URL starting
with `https://` plus at least one character, space-free; and a status that
is either transient or a space-free token free of status keywords and of
`https://` (also requiring age and the URL tail to be free of them, so
that a non-transient row triggers no loose pattern). -/
def Row.WF (r : Row) : Prop :=
  r.age ≠ [] ∧ (∀ c ∈ r.age, isSpace c = false) ∧
  startsCS httpsL r.url = true ∧ 9 ≤ r.url.length ∧
  (∀ c ∈ r.url, isSpace c = false) ∧
  (r.transient = true ∨
    ((∀ c ∈ r.status, isSpace c = false) ∧
     containsCI buildL r.status = false ∧ containsCI queueL r.status = false ∧
     containsCI httpsL r.status = false ∧
     containsCI buildL r.age = false ∧ containsCI queueL r.age = false ∧
     containsCI httpsL r.age = false ∧
     containsCI buildL r.url = false ∧ containsCI queueL r.url = false ∧
     containsCI httpsL (r.url.drop 1) = false))

instance (r : Row) : Decidable r.WF := by
  unfold Row.WF
  infer_instance

theorem matchKw_words_transient {S : List Char}
    (hS : lowerStr S = buildingLowL ∨ lowerStr S = queuedLowL) :
    matchKw kwWords S = some S := by
  rcases hS with h | h
  · have hs : startsCI buildingL S = true := by
      rw [startsCI_iff_lower, h]
      decide
    have hl : S.length = 8 := by
      have := congrArg List.length h
      simpa [lowerStr] using this
    have htake : S.take buildingL.length = S := by
      rw [show buildingL.length = 8 from rfl, ← hl, List.take_length]
    simp [matchKw, kwWords, hs, htake]
  · have hsB : startsCI buildingL S = false := by
      cases hx : startsCI buildingL S with
      | false => rfl
      | true =>
        have hpre := (startsCI_iff_lower buildingL S).mp hx
        rw [h] at hpre
        exact absurd hpre (by decide)
    have hsQ : startsCI queuedL S = true := by
      rw [startsCI_iff_lower, h]
      decide
    have hl : S.length = 6 := by
      have := congrArg List.length h
      simpa [lowerStr] using this
    have htake : S.take queuedL.length = S := by
      rw [show queuedL.length = 6 from rfl, ← hl, List.take_length]
    simp [matchKw, kwWords, hsB, hsQ, htake]

theorem matchKw_words_bullet (X : List Char) : matchKw kwWords ('●' :: X) = none := by
  have hb : startsCI buildingL ('●' :: X) = false :=
    startsCI_head_ne (by decide) ['u', 'i', 'l', 'd', 'i', 'n', 'g'] X
  have hq : startsCI queuedL ('●' :: X) = false :=
    startsCI_head_ne (by decide) ['u', 'e', 'u', 'e', 'd'] X
  have hbl : startsCI buildingLowL ('●' :: X) = false :=
    startsCI_head_ne (by decide) ['u', 'i', 'l', 'd', 'i', 'n', 'g'] X
  have hql : startsCI queuedLowL ('●' :: X) = false :=
    startsCI_head_ne (by decide) ['u', 'e', 'u', 'e', 'd'] X
  simp [matchKw, kwWords, hb, hq, hbl, hql]

theorem transient_head_nonspace {S : List Char}
    (hS : lowerStr S = buildingLowL ∨ lowerStr S = queuedLowL) :
    ∃ c t, S = c :: t ∧ isSpace c = false ∧ (lowChar c = 'b' ∨ lowChar c = 'q') := by
  rcases hS with h | h
  · cases S with
    | nil => exact absurd h (by decide)
    | cons c t =>
      simp only [lowerStr, List.map_cons, buildingLowL, List.cons.injEq] at h
      refine ⟨c, t, rfl, ?_, Or.inl h.1⟩
      rw [← isSpace_lowChar, h.1]
      decide
  · cases S with
    | nil => exact absurd h (by decide)
    | cons c t =>
      simp only [lowerStr, List.map_cons, queuedLowL, List.cons.injEq] at h
      refine ⟨c, t, rfl, ?_, Or.inr h.1⟩
      rw [← isSpace_lowChar, h.1]
      decide

theorem render_facts (S0 : List Char) {A U : List Char}
    (hA : A ≠ []) (hAs : ∀ c ∈ A, isSpace c = false)
    (hU : startsCS httpsL U = true)
    (hUs : ∀ c ∈ U, isSpace c = false) :
    (A ++ ' ' :: (U ++ ' ' :: S0)).dropWhile isSpace = A ++ ' ' :: (U ++ ' ' :: S0) ∧
    takeToken (A ++ ' ' :: (U ++ ' ' :: S0)) = A ∧
    dropToken (A ++ ' ' :: (U ++ ' ' :: S0)) = ' ' :: (U ++ ' ' :: S0) ∧
    (' ' :: (U ++ ' ' :: S0)).dropWhile isSpace = U ++ ' ' :: S0 ∧
    takeToken (U ++ ' ' :: S0) = U ∧
    dropToken (U ++ ' ' :: S0) = ' ' :: S0 ∧
    startsCI httpsL (U ++ ' ' :: S0) = true := by
  obtain ⟨a, A', rfl⟩ := List.exists_cons_of_ne_nil hA
  obtain ⟨t, hUeq⟩ := startsCS_exists hU
  have hUcons : U = 'h' :: (['t', 't', 'p', 's', ':', '/', '/'] ++ t) := by
    rw [hUeq]; rfl
  have f4 : (U ++ ' ' :: S0).dropWhile isSpace = U ++ ' ' :: S0 := by
    rw [hUcons, List.cons_append, List.dropWhile_cons_of_neg (by decide)]
  refine ⟨?_, ?_, ?_, ?_, ?_, ?_, ?_⟩
  · rw [List.cons_append, List.dropWhile_cons_of_neg (by simp [hAs a (by simp)])]
  · exact takeWhile_append_stop (a :: A') _ (fun c hc => by simp [hAs c hc]) (by decide)
  · exact dropWhile_append_stop (a :: A') _ (fun c hc => by simp [hAs c hc]) (by decide)
  · rw [List.dropWhile_cons_of_pos (by decide)]
    exact f4
  · exact takeWhile_append_stop U _ (fun c hc => by simp [hUs c hc]) (by decide)
  · exact dropWhile_append_stop U _ (fun c hc => by simp [hUs c hc]) (by decide)
  · rw [hUeq, List.append_assoc]
    exact startsCI_refl_append httpsL _

theorem p1_render_eq {A U S0 : List Char}
    (hA : A ≠ []) (hAs : ∀ c ∈ A, isSpace c = false)
    (hU : startsCS httpsL U = true) (hUl : 9 ≤ U.length)
    (hUs : ∀ c ∈ U, isSpace c = false) :
    p1 (A ++ ' ' :: (U ++ ' ' :: S0)) =
      (match S0.dropWhile isSpace with
       | '●' :: r5 =>
         (match matchKw kwWords (r5.dropWhile isSpace) with
          | some s => some (U, s)
          | none => none)
       | _ => none) := by
  obtain ⟨f1, f2, f3, f4, f5, f6, f7⟩ := render_facts S0 hA hAs hU hUs
  have g2 : (' ' :: S0).dropWhile isSpace = S0.dropWhile isSpace :=
    List.dropWhile_cons_of_pos (by decide)
  simp [p1, f1, f2, f3, f4, f5, f6, f7, g2, hUl, hA,
    show isSpace ' ' = true from rfl]

theorem p2_render_eq {A U S0 : List Char}
    (hA : A ≠ []) (hAs : ∀ c ∈ A, isSpace c = false)
    (hU : startsCS httpsL U = true) (hUl : 9 ≤ U.length)
    (hUs : ∀ c ∈ U, isSpace c = false) :
    p2 (A ++ ' ' :: (U ++ ' ' :: S0)) =
      (match matchKw kwWords (S0.dropWhile isSpace) with
       | some s => some (U, s)
       | none => none) := by
  obtain ⟨f1, f2, f3, f4, f5, f6, f7⟩ := render_facts S0 hA hAs hU hUs
  have g2 : (' ' :: S0).dropWhile isSpace = S0.dropWhile isSpace :=
    List.dropWhile_cons_of_pos (by decide)
  simp [p2, f1, f2, f3, f4, f5, f6, f7, g2, hUl, hA,
    show isSpace ' ' = true from rfl]

theorem matchKw_none_starts {x : List Char} :
    ∀ {ks : List (List Char)}, matchKw ks x = none →
      ∀ kw ∈ ks, startsCI kw x = false := by
  intro ks
  induction ks with
  | nil => intro _ kw hkw; simp at hkw
  | cons k rest ih =>
    intro h kw hkw
    rw [matchKw] at h
    split at h
    · exact absurd h (by simp)
    · rcases List.mem_cons.mp hkw with rfl | hkw2
      · rename_i hns
        simpa using hns
      · exact ih h kw hkw2

theorem matchKw_words_none_append_space {l x : List Char}
    (hb : containsCI buildL l = false) (hq : containsCI queueL l = false)
    (hx : x <:+ l) (S' : List Char) : matchKw kwWords (x ++ ' ' :: S') = none := by
  cases hm : matchKw kwWords (x ++ ' ' :: S') with
  | none => rfl
  | some s =>
    exfalso
    obtain ⟨kw, hkw, hst, -⟩ := matchKw_some hm
    have hkwns : ∀ c ∈ kw, isSpace c = false := by
      simp only [kwWords, List.mem_cons, List.not_mem_nil, or_false] at hkw
      rcases hkw with rfl | rfl | rfl | rfl <;> decide
    have h2 := startsCI_space_block hkwns x (' ' :: S').tail hst
    have h3 := matchKw_none_starts (matchKw_words_none hb hq hx) kw (by
      simp only [kwWords, List.mem_cons, List.not_mem_nil, or_false] at hkw ⊢
      exact hkw)
    rw [h3] at h2
    exact Bool.false_ne_true h2

theorem p3hit_gate {kws : List (List Char)} {l : List Char}
    (h : startsCI httpsL l = false) : p3hit kws l = none := by
  rw [p3hit, if_neg]
  rintro ⟨h1, -⟩
  rw [h] at h1
  exact Bool.false_ne_true h1

theorem p4hit_gate {l : List Char} (h : startsCI httpsL l = false) :
    p4hit l = none := by
  rw [p4hit, if_neg]
  rintro ⟨h1, -⟩
  rw [h] at h1
  exact Bool.false_ne_true h1

theorem scan_render_none {g : List Char → Option Deployment}
    (Hg : ∀ x, startsCI httpsL x = false → g x = none)
    {A U S0 : List Char}
    (hageCI : containsCI httpsL A = false)
    (hurl1 : containsCI httpsL (U.drop 1) = false)
    (hrest : containsCI httpsL (' ' :: S0) = false)
    (hg0 : g (U ++ ' ' :: S0) = none) :
    scanFirst g (A ++ ' ' :: (U ++ ' ' :: S0)) = none := by
  have hkwns : ∀ c ∈ httpsL, isSpace c = false := by decide
  have step1 : scanFirst g (A ++ ' ' :: (U ++ ' ' :: S0)) =
      scanFirst g (' ' :: (U ++ ' ' :: S0)) := by
    apply scanFirst_append_none
    intro n _
    apply Hg
    cases hx : startsCI httpsL (A.drop n ++ ' ' :: (U ++ ' ' :: S0)) with
    | false => rfl
    | true =>
      have h2 := startsCI_space_block hkwns _ _ hx
      have h3 := containsCI_of_suffix (List.drop_suffix n A) h2
      rw [hageCI] at h3
      exact absurd h3 Bool.false_ne_true
  have hsp : startsCI httpsL (' ' :: (U ++ ' ' :: S0)) = false :=
    startsCI_head_ne (by decide) ['t', 't', 'p', 's', ':', '/', '/'] _
  have step2 : scanFirst g (' ' :: (U ++ ' ' :: S0)) = scanFirst g (U ++ ' ' :: S0) := by
    rw [scanFirst, Hg _ hsp]
  have step3 : scanFirst g (U ++ ' ' :: S0) = scanFirst g (' ' :: S0) := by
    apply scanFirst_append_none
    intro n _
    cases n with
    | zero => simpa using hg0
    | succ m =>
      apply Hg
      cases hx : startsCI httpsL (U.drop (m + 1) ++ ' ' :: S0) with
      | false => rfl
      | true =>
        have h2 := startsCI_space_block hkwns _ _ hx
        have hdd : (U.drop 1).drop m = U.drop (m + 1) := by
          rw [List.drop_drop, Nat.add_comm]
        have h4 := containsCI_of_suffix (hdd ▸ List.drop_suffix m (U.drop 1)) h2
        rw [hurl1] at h4
        exact absurd h4 Bool.false_ne_true
  have step4 : scanFirst g (' ' :: S0) = none := by
    apply scanFirst_eq_none
    intro x hx
    exact Hg x (containsCI_false_suffix hrest hx)
  rw [step1, step2, step3, step4]

theorem p3hit_url_none {kws : List (List Char)} {U S0 : List Char}
    (hUs : ∀ c ∈ U, isSpace c = false)
    (hmk : ∀ x, x <:+ (' ' :: S0) → matchKw kws x = none) :
    p3hit kws (U ++ ' ' :: S0) = none := by
  rw [p3hit]
  split
  · have hdt : dropToken (U ++ ' ' :: S0) = ' ' :: S0 :=
      dropWhile_append_stop U _ (fun c hc => by simp [hUs c hc]) (by decide)
    have hscan : scanFirst (spacedKwAt kws) (' ' :: S0) = none := by
      apply scanFirst_eq_none
      intro x hx
      cases x with
      | nil => rfl
      | cons c rest =>
        rw [spacedKwAt]
        split
        · exact hmk rest ((List.suffix_cons c rest).trans hx)
        · rfl
    rw [hdt, hscan]
  · rfl

theorem p4hit_url_none {U S0 : List Char}
    (hUs : ∀ c ∈ U, isSpace c = false)
    (hbU : containsCI buildL U = false) (hqU : containsCI queueL U = false)
    (hmk : ∀ x, x <:+ (' ' :: S0) → matchKw kwWords x = none) :
    p4hit (U ++ ' ' :: S0) = none := by
  rw [p4hit]
  split
  · have hdt : dropToken (U ++ ' ' :: S0) = ' ' :: S0 :=
      dropWhile_append_stop U _ (fun c hc => by simp [hUs c hc]) (by decide)
    have hscan : scanFirst (matchKw kwWords) (' ' :: S0) = none :=
      scanFirst_eq_none fun x hx => hmk x hx
    rw [hdt, hscan]
    have htok : takeToken (U ++ ' ' :: S0) = U :=
      takeWhile_append_stop U _ (fun c hc => by simp [hUs c hc]) (by decide)
    rw [lastSplit, htok]
    refine List.findSome?_eq_none_iff.mpr ?_
    intro q hqmem
    have hqlt : q < U.length := by
      have := List.mem_reverse.mp hqmem
      exact List.mem_range.mp this
    split
    · have hdq : (U ++ ' ' :: S0).drop q = U.drop q ++ ' ' :: S0 := by
        rw [List.drop_append_eq_append_drop, Nat.sub_eq_zero_of_le (le_of_lt hqlt)]
        rfl
      rw [hdq, matchKw_words_none_append_space hbU hqU (List.drop_suffix q U) S0]
      rfl
    · rfl
  · rfl

theorem dropWhile_eq_self_of_nonspace {S : List Char}
    (h : ∀ c ∈ S, isSpace c = false) : S.dropWhile isSpace = S := by
  cases S with
  | nil => rfl
  | cons c t => exact List.dropWhile_cons_of_neg (by simp [h c (by simp)])

theorem matchPatterns_render (r : Row) (hwf : r.WF) :
    matchPatterns r.render = if r.transient then some (r.url, r.status) else none := by
  obtain ⟨hA, hAs, hU, hUl, hUs, hlast⟩ := hwf
  cases hb : r.bullet with
  | true =>
    have hrend : r.render = r.age ++ ' ' :: (r.url ++ ' ' :: ('●' :: ' ' :: r.status)) := by
      simp [Row.render, Row.sepst, hb]
    have e1 : ('●' :: ' ' :: r.status).dropWhile isSpace = '●' :: ' ' :: r.status :=
      List.dropWhile_cons_of_neg (by decide)
    cases htr : r.transient with
    | true =>
      have hSor : lowerStr r.status = buildingLowL ∨ lowerStr r.status = queuedLowL := by
        have := htr
        rw [Row.transient, Bool.or_eq_true, beq_iff_eq, beq_iff_eq] at this
        exact this
      obtain ⟨c, t, hSc, hcs, -⟩ := transient_head_nonspace hSor
      have e2 : (' ' :: r.status).dropWhile isSpace = r.status := by
        rw [List.dropWhile_cons_of_pos (by decide), hSc,
          List.dropWhile_cons_of_neg (by simp [hcs])]
      have hp1 : p1 r.render = some (r.url, r.status) := by
        rw [hrend, p1_render_eq hA hAs hU hUl hUs, e1]
        simp [e2, matchKw_words_transient hSor]
      simp only [matchPatterns, hp1, if_true]
    | false =>
      have hclean := hlast.resolve_left (by simp [htr])
      obtain ⟨hSs, hSb, hSq, hSh, hAb, hAq, hAh, hUb, hUq, hU1h⟩ := hclean
      have hcb : containsCI buildL (' ' :: '●' :: ' ' :: r.status) = false := by
        show containsCI ('B' :: ['u', 'i', 'l', 'd'])
          (' ' :: '●' :: ' ' :: r.status) = false
        rw [containsCI_cons_ne (by decide), containsCI_cons_ne (by decide),
          containsCI_cons_ne (by decide)]
        exact hSb
      have hcq : containsCI queueL (' ' :: '●' :: ' ' :: r.status) = false := by
        show containsCI ('Q' :: ['u', 'e', 'u', 'e'])
          (' ' :: '●' :: ' ' :: r.status) = false
        rw [containsCI_cons_ne (by decide), containsCI_cons_ne (by decide),
          containsCI_cons_ne (by decide)]
        exact hSq
      have hch : containsCI httpsL (' ' :: '●' :: ' ' :: r.status) = false := by
        show containsCI ('h' :: ['t', 't', 'p', 's', ':', '/', '/'])
          (' ' :: '●' :: ' ' :: r.status) = false
        rw [containsCI_cons_ne (by decide), containsCI_cons_ne (by decide),
          containsCI_cons_ne (by decide)]
        exact hSh
      have hmkw : ∀ x, x <:+ (' ' :: '●' :: ' ' :: r.status) →
          matchKw kwWords x = none := fun x hx => matchKw_words_none hcb hcq hx
      have hmkp : ∀ x, x <:+ (' ' :: '●' :: ' ' :: r.status) →
          matchKw kwPrefixes x = none := fun x hx => matchKw_prefixes_none hcb hcq hx
      have hp1 : p1 r.render = none := by
        rw [hrend, p1_render_eq hA hAs hU hUl hUs, e1]
        have e3 : (' ' :: r.status).dropWhile isSpace = r.status.dropWhile isSpace :=
          List.dropWhile_cons_of_pos (by decide)
        simp [e3, matchKw_words_none hSb hSq (List.dropWhile_suffix isSpace)]
      have hp2 : p2 r.render = none := by
        rw [hrend, p2_render_eq hA hAs hU hUl hUs, e1]
        simp [matchKw_words_bullet]
      have hp3 : p3 r.render = none := by
        rw [hrend]
        show scanFirst (p3hit kwWords) _ = none
        exact scan_render_none (fun x hx => p3hit_gate hx) hAh hU1h hch
          (p3hit_url_none hUs hmkw)
      have hp4 : p4fn r.render = none := by
        rw [hrend]
        show scanFirst p4hit _ = none
        exact scan_render_none (fun x hx => p4hit_gate hx) hAh hU1h hch
          (p4hit_url_none hUs hUb hUq hmkw)
      have hp5 : p5 r.render = none := by
        rw [hrend]
        show scanFirst (p3hit kwPrefixes) _ = none
        exact scan_render_none (fun x hx => p3hit_gate hx) hAh hU1h hch
          (p3hit_url_none hUs hmkp)
      simp only [matchPatterns, hp1, hp2, hp3, hp4, hp5, Bool.false_eq_true, if_false]
  | false =>
    have hrend : r.render = r.age ++ ' ' :: (r.url ++ ' ' :: r.status) := by
      simp [Row.render, Row.sepst, hb]
    cases htr : r.transient with
    | true =>
      have hSor : lowerStr r.status = buildingLowL ∨ lowerStr r.status = queuedLowL := by
        have := htr
        rw [Row.transient, Bool.or_eq_true, beq_iff_eq, beq_iff_eq] at this
        exact this
      obtain ⟨c, t, hSc, hcs, hcl⟩ := transient_head_nonspace hSor
      have eS : r.status.dropWhile isSpace = r.status := by
        rw [hSc]
        exact List.dropWhile_cons_of_neg (by simp [hcs])
      have hp1 : p1 r.render = none := by
        rw [hrend, p1_render_eq hA hAs hU hUl hUs, eS, hSc]
        split
        · rename_i r5 heq
          injection heq with h1 h2
          rw [h1] at hcl
          exact absurd hcl (by decide)
        · rfl
      have hp2 : p2 r.render = some (r.url, r.status) := by
        rw [hrend, p2_render_eq hA hAs hU hUl hUs, eS]
        simp [matchKw_words_transient hSor]
      simp only [matchPatterns, hp1, hp2, if_true]
    | false =>
      have hclean := hlast.resolve_left (by simp [htr])
      obtain ⟨hSs, hSb, hSq, hSh, hAb, hAq, hAh, hUb, hUq, hU1h⟩ := hclean
      have eS : r.status.dropWhile isSpace = r.status :=
        dropWhile_eq_self_of_nonspace hSs
      have hcb : containsCI buildL (' ' :: r.status) = false := by
        show containsCI ('B' :: ['u', 'i', 'l', 'd']) (' ' :: r.status) = false
        rw [containsCI_cons_ne (by decide)]
        exact hSb
      have hcq : containsCI queueL (' ' :: r.status) = false := by
        show containsCI ('Q' :: ['u', 'e', 'u', 'e']) (' ' :: r.status) = false
        rw [containsCI_cons_ne (by decide)]
        exact hSq
      have hch : containsCI httpsL (' ' :: r.status) = false := by
        show containsCI ('h' :: ['t', 't', 'p', 's', ':', '/', '/'])
          (' ' :: r.status) = false
        rw [containsCI_cons_ne (by decide)]
        exact hSh
      have hmkw : ∀ x, x <:+ (' ' :: r.status) → matchKw kwWords x = none :=
        fun x hx => matchKw_words_none hcb hcq hx
      have hmkp : ∀ x, x <:+ (' ' :: r.status) → matchKw kwPrefixes x = none :=
        fun x hx => matchKw_prefixes_none hcb hcq hx
      have hp1 : p1 r.render = none := by
        rw [hrend, p1_render_eq hA hAs hU hUl hUs, eS]
        split
        · rename_i r5 heq
          have hr5 : r5 <:+ r.status := by
            rw [heq]
            exact List.suffix_cons '●' r5
          simp [matchKw_words_none hSb hSq ((List.dropWhile_suffix isSpace).trans hr5)]
        · rfl
      have hp2 : p2 r.render = none := by
        rw [hrend, p2_render_eq hA hAs hU hUl hUs, eS]
        simp [matchKw_words_none hSb hSq List.suffix_rfl]
      have hp3 : p3 r.render = none := by
        rw [hrend]
        show scanFirst (p3hit kwWords) _ = none
        exact scan_render_none (fun x hx => p3hit_gate hx) hAh hU1h hch
          (p3hit_url_none hUs hmkw)
      have hp4 : p4fn r.render = none := by
        rw [hrend]
        show scanFirst p4hit _ = none
        exact scan_render_none (fun x hx => p4hit_gate hx) hAh hU1h hch
          (p4hit_url_none hUs hUb hUq hmkw)
      have hp5 : p5 r.render = none := by
        rw [hrend]
        show scanFirst (p3hit kwPrefixes) _ = none
        exact scan_render_none (fun x hx => p3hit_gate hx) hAh hU1h hch
          (p3hit_url_none hUs hmkp)
      simp only [matchPatterns, hp1, hp2, hp3, hp4, hp5, Bool.false_eq_true, if_false]

theorem primaryRows_renders : ∀ (rows : List Row) (cnt : Nat),
    (∀ r ∈ rows, r.WF) → cnt + rows.length ≤ 10 →
    primaryRows (rows.map Row.render) cnt =
      (rows.filter Row.transient).map (fun r => (r.url, r.status)) := by
  intro rows
  induction rows with
  | nil => intro cnt _ _; rfl
  | cons r rows ih =>
    intro cnt hwf hlen
    have hWFr := hwf r (by simp)
    have hstrip : strip r.render ≠ [] := by
      obtain ⟨a, A', ha⟩ := List.exists_cons_of_ne_nil hWFr.1
      have hsh : r.render = a :: (A' ++ ' ' :: (r.url ++ r.sepst)) := by
        rw [Row.render, ha]
        rfl
      rw [hsh]
      exact strip_ne_nil (hWFr.2.1 a (by rw [ha]; simp)) _
    rw [List.map_cons, primaryRows, if_neg hstrip,
      if_neg (by simp only [List.length_cons] at hlen; omega),
      matchPatterns_render r hWFr]
    have hlen2 : cnt + 1 + rows.length ≤ 10 := by
      simp only [List.length_cons] at hlen
      omega
    have hwf2 : ∀ x ∈ rows, Row.WF x := fun x hx => hwf x (by simp [hx])
    cases htr : r.transient with
    | true =>
      simp only [htr, if_true]
      rw [List.filter_cons_of_pos (by simp [htr]), List.map_cons]
      exact congrArg _ (ih (cnt + 1) hwf2 hlen2)
    | false =>
      simp only [htr, Bool.false_eq_true, if_false]
      rw [List.filter_cons_of_neg (by simp [htr])]
      exact ih (cnt + 1) hwf2 hlen2

/-- C6: primary parser on a well-formed table.  For a header line followed
by at most ten well-formed data rows (each the tabular shape targeted by
extraction patterns 1 and 2), the parse result consists of exactly the rows
whose status is `Building` or `Queued` case-insensitively, as `(url,
status)` pairs, in row order; rows with any other status (e.g. `Ready`)
contribute nothing. -/
theorem c6_primary_wellformed (hd : Line) (rows : List Row)
    (hhd1 : strip hd ≠ []) (hhd2 : isHeaderLine (strip hd) = true)
    (hlen : rows.length ≤ 10) (hwf : ∀ r ∈ rows, r.WF) :
    primaryParse (hd :: rows.map Row.render) =
      some ((rows.filter Row.transient).map (fun r => (r.url, r.status))) := by
  rw [primaryParse, if_neg hhd1, if_pos hhd2,
    primaryRows_renders rows 0 hwf (by omega)]

/-- Three table rows: transient with bullet, transient lowercase without
bullet, and a `Ready` row. -/
def c6Rows : List Row :=
  [⟨"3d".toList, "https://demo-a.vercel.app".toList, true, "Building".toList⟩,
   ⟨"4d".toList, "https://demo-b.vercel.app".toList, false, "queued".toList⟩,
   ⟨"5d".toList, "https://demo-c.vercel.app".toList, true, "Ready".toList⟩]

/-- Closed instance of `c6_primary_wellformed` with satisfied hypotheses. -/
theorem c6_primary_wellformed_witness :
    primaryParse ("Age Deployment Status".toList :: c6Rows.map Row.render) =
      some ((c6Rows.filter Row.transient).map (fun r => (r.url, r.status))) :=
  c6_primary_wellformed "Age Deployment Status".toList c6Rows
    (by decide) (by decide) (by decide) (by decide)
